import Mathlib

/-!
# AudioStreamOutALSA: playback stream of the ALSA audio HAL

A shallow embedding of `src/AudioStreamOutALSA.cpp`.

* The object state read or written by the file (`mPowerLock`, `mFrameCount`, and the
  fields `handle`, `useCase`, `latency` of the shared `alsa_handle_t`) is the record `Stream`.
* Calls that leave the file (wake-lock service, use-case manager, driver module, `pcm_write`)
  are recorded, in program order, in the ghost field `Stream.log`; what they answer is
  supplied by a `Driver` record of oracles, indexed by call number within one `write`.
* `mFrameCount` is a `uint32_t` (it is what `getRenderPosition` stores through its
  `uint32_t *`), so `mFrameCount += n` is addition modulo `2 ^ 32`.  `latency()` computes in
  `unsigned int` and returns `uint32_t`, so its arithmetic is modulo `2 ^ 32` as well.
* Byte counts (`bytes`, `sent`, of type `size_t`) are natural numbers: the buffer of `bytes`
  bytes exists in memory, so `sent` stays far below the platform word size.
* The `do … while` loop of `write` need not terminate (the driver may answer `-EBADFD` for
  ever), so the loop carries fuel; `none` means the fuel ran out (or a null `handle` was
  dereferenced, which the control flow of `write` excludes).
* Of the calls that leave the file only `module->open` and `module->standby` (and the base
  class `close`) change a field the file reads, namely `mHandle->handle`; between calls the
  owner of the shared handle may change it freely (`Reachable.shared`).
* `float`/`double` arithmetic of `setVolume` is IEEE-754 binary32/binary64 with
  round-to-nearest, ties-to-even, on rationals extended by infinities and NaN.
-/

namespace AudioStreamOutALSA

/-! ## Constants of headers outside the file -/

/-- Linux `errno.h`: "File descriptor in bad state". -/
def EBADFD : Int := 77

/-- Android `utils/Errors.h`: `NO_ERROR = 0`. -/
def NO_ERROR : Int := 0

/-- Android `utils/Errors.h`: `INVALID_OPERATION = -ENOSYS`. -/
def INVALID_OPERATION : Int := -38

/-- Use-case names of the ALSA use-case manager header and the capacity of
`alsa_handle_t::useCase`; their declarations are outside the file, so they are parameters. -/
structure UseCaseNames where
  SND_USE_CASE_VERB_INACTIVE : String
  SND_USE_CASE_VERB_HIFI : String
  SND_USE_CASE_VERB_HIFI_LOW_POWER : String
  SND_USE_CASE_MOD_PLAY_MUSIC : String
  SND_USE_CASE_MOD_PLAY_LPA : String
  MAX_STR_LEN : Nat

/-! ## State -/

/-- The part of `struct pcm` the stream reads. -/
structure Pcm where
  period_size : Nat
deriving DecidableEq, Repr

/-- Calls that leave the file, in program order. -/
inductive Event where
  | acquire_wake_lock
  | release_wake_lock
  | snd_use_case_get
  | route
  | snd_use_case_set (identifier value : String)
  | module_open
  | module_standby
  | base_close
  | pcm_write (offset count : Nat)
  | setLpaVolume (percent : Int)
deriving DecidableEq, Repr

/-- State of one `AudioStreamOutALSA` together with the fields of `*mHandle` it uses.
`handle = none` is `mHandle->handle == NULL`; `mFrameCount` is the `uint32_t` counter
(every assignment of the file reduces it modulo `2 ^ 32`); `latency` is the `unsigned int`
field `mHandle->latency`, in microseconds; `log` is ghost state. -/
structure Stream where
  mPowerLock : Bool
  mFrameCount : Nat
  handle : Option Pcm
  useCase : String
  latency : Nat
  log : List Event
deriving DecidableEq, Repr

/-- Answers of the collaborators during one call.
`use_case` is what `snd_use_case_get(ucMgr, "_verb", …)` stores (`none` is `NULL`);
`module_open k` is `mHandle->handle` after the `k`-th `module->open(mHandle)` of the call;
`pcm_write k` is the result of the `k`-th `pcm_write` of the call;
`module_standby h` is `mHandle->handle` after `module->standby(mHandle)` entered with `h`. -/
structure Driver where
  use_case : Option String
  module_open : Nat → Option Pcm
  pcm_write : Nat → Int
  module_standby : Option Pcm → Option Pcm

/-- The constructor: `mFrameCount(0)`; the base class starts with `mPowerLock(false)`;
the handle is the one passed in. -/
def fresh (handle : Option Pcm) (useCase : String) (latency : Nat) : Stream :=
  { mPowerLock := false, mFrameCount := 0, handle := handle, useCase := useCase,
    latency := latency, log := [] }

/-- Append one outgoing call to the log. -/
def Stream.emit (s : Stream) (e : Event) : Stream :=
  { s with log := s.log ++ [e] }

/-- BSD `strlcpy(dst, src, size)`: copies at most `size - 1` characters. -/
def strlcpy (dst src : String) (size : Nat) : String :=
  if size = 0 then dst else String.mk (src.data.take (size - 1))

/-! ## write -/

/-- The `do { … } while (mHandle->handle && sent < bytes)` loop of `write`.
`writes` and `opens` count the `pcm_write` and `module->open` calls already made in this
call of `write`. -/
def writeLoop (d : Driver) (bytes : Nat) :
    Nat → Stream → Nat → Int → Nat → Nat → Option (Int × Stream)
  | 0, _, _, _, _, _ => none
  | fuel + 1, s, sent, write_pending, writes, opens =>
    match s.handle with
    | none => none
    | some pcm =>
      let write_pending : Int :=
        if write_pending < pcm.period_size then pcm.period_size else write_pending
      let n := d.pcm_write writes
      let s := s.emit (Event.pcm_write sent pcm.period_size)
      if n = -EBADFD then
        let s := { s.emit Event.module_open with handle := d.module_open opens }
        if s.handle.isSome ∧ sent < bytes then
          writeLoop d bytes fuel s sent write_pending (writes + 1) (opens + 1)
        else some (sent, s)
      else if n < 0 then some (n, s)
      else
        let s := { s with mFrameCount := (s.mFrameCount + n.toNat) % 2 ^ 32 }
        let sent := sent + pcm.period_size
        let write_pending := write_pending - pcm.period_size
        if s.handle.isSome ∧ sent < bytes then
          writeLoop d bytes fuel s sent write_pending (writes + 1) opens
        else some (sent, s)

/-- The wake-lock test of `write` (lines 102–105). -/
def acquirePowerLock (s : Stream) : Stream :=
  if s.mPowerLock then s else { s.emit Event.acquire_wake_lock with mPowerLock := true }

/-- The lazy open of `write` (lines 113–127), entered with `mHandle->handle == NULL`. -/
def lazyOpen (u : UseCaseNames) (d : Driver) (s : Stream) : Stream :=
  let name :=
    if d.use_case = none ∨ d.use_case = some u.SND_USE_CASE_VERB_INACTIVE then
      strlcpy s.useCase u.SND_USE_CASE_VERB_HIFI u.MAX_STR_LEN
    else
      strlcpy s.useCase u.SND_USE_CASE_MOD_PLAY_MUSIC u.MAX_STR_LEN
  let s := { s.emit Event.snd_use_case_get with useCase := name }
  let s := s.emit Event.route
  let s := s.emit
    (if s.useCase = u.SND_USE_CASE_VERB_HIFI then
      Event.snd_use_case_set "_verb" u.SND_USE_CASE_VERB_HIFI
    else
      Event.snd_use_case_set "_enamod" s.useCase)
  { s.emit Event.module_open with handle := d.module_open 0 }

/-- Model of `AudioStreamOutALSA::write(buffer, bytes)`: the returned `ssize_t` and the state
left behind, or `none` when the loop has not finished within `fuel` iterations. -/
def write (u : UseCaseNames) (d : Driver) (fuel : Nat) (s : Stream) (bytes : Nat) :
    Option (Int × Stream) :=
  let s := acquirePowerLock s
  let write_pending : Int := bytes
  match s.handle with
  | none =>
    let s := lazyOpen u d s
    match s.handle with
    | none => some (0, s)
    | some _ => writeLoop d bytes fuel s 0 write_pending 0 1
  | some _ => writeLoop d bytes fuel s 0 write_pending 0 0

/-! ## close, standby, latency, getRenderPosition -/

/-- Modelled from the spec: `ALSAStreamOps::close()`, defined outside the file, "releases the
driver connection" and touches neither the wake-lock nor the frame counter. -/
def ALSAStreamOps_close (s : Stream) : Stream :=
  { s.emit Event.base_close with handle := none }

/-- Release the wake-lock if it is held (`if (mPowerLock) { release_wake_lock(…); … }`). -/
def releasePowerLock (s : Stream) : Stream :=
  if s.mPowerLock then { s.emit Event.release_wake_lock with mPowerLock := false } else s

/-- Model of `AudioStreamOutALSA::close()`; the destructor calls it. -/
def close (s : Stream) : Int × Stream :=
  (NO_ERROR, releasePowerLock (ALSAStreamOps_close s))

/-- Model of `AudioStreamOutALSA::standby()`. -/
def standby (d : Driver) (s : Stream) : Int × Stream :=
  let s := { s.emit Event.module_standby with handle := d.module_standby s.handle }
  let s := releasePowerLock s
  (NO_ERROR, { s with mFrameCount := 0 })

/-- The macro `USEC_TO_MSEC(x) ((x + 999) / 1000)` on an `unsigned int`. -/
def USEC_TO_MSEC (x : Nat) : Nat := ((x + 999) % 2 ^ 32) / 1000

/-- Model of `AudioStreamOutALSA::latency()`. -/
def latency (s : Stream) : Nat := USEC_TO_MSEC s.latency

/-- Model of `AudioStreamOutALSA::getRenderPosition(dspFrames)`: status and `*dspFrames`. -/
def getRenderPosition (s : Stream) : Int × Nat := (NO_ERROR, s.mFrameCount)

/-- Model of `AudioStreamOutALSA::dump`. -/
def dump (_s : Stream) : Int := NO_ERROR

/-! ## IEEE-754 arithmetic used by setVolume -/

/-- A `float` or `double` value: NaN, an infinity, or a finite value (signed zeros are not
told apart; no operation of `setVolume` depends on the sign of a zero).  `fin q` carries any
rational; the values of a format are the rationals its rounding leaves fixed, so a statement
about all `fin q` covers them. -/
inductive Flt where
  | nan
  | inf (negative : Bool)
  | fin (q : ℚ)
deriving DecidableEq, Repr

/-- Round to the nearest integer, ties to the even one: the IEEE-754 default rounding
direction, which is the one `lrint` uses when the rounding mode was never changed. -/
def rne (q : ℚ) : ℤ :=
  if q - ⌊q⌋ < 1 / 2 then ⌊q⌋
  else if 1 / 2 < q - ⌊q⌋ then ⌊q⌋ + 1
  else if ⌊q⌋ % 2 = 0 then ⌊q⌋ else ⌊q⌋ + 1

/-- A binary interchange format: precision in bits, least and greatest exponent. -/
structure Fmt where
  prec : ℕ
  emin : ℤ
  emax : ℤ

/-- The format of `float`. -/
def binary32 : Fmt := { prec := 24, emin := -126, emax := 127 }

/-- The format of `double`. -/
def binary64 : Fmt := { prec := 53, emin := -1022, emax := 1023 }

/-- Spacing of the format's values around `q` (the subnormal spacing below `2 ^ emin`). -/
def Fmt.ulp (f : Fmt) (q : ℚ) : ℚ :=
  2 ^ (max (Int.log 2 |q|) f.emin - ((f.prec : ℤ) - 1))

/-- The value nearest to `q` on the format's grid around `q`, ties to even. -/
def Fmt.roundFin (f : Fmt) (q : ℚ) : ℚ := rne (q / f.ulp q) * f.ulp q

/-- Rounding of an exact result to the format: overflow gives an infinity. -/
def Fmt.round (f : Fmt) (q : ℚ) : Flt :=
  if 2 ^ (f.emax + 1) ≤ |f.roundFin q| then Flt.inf (decide (q < 0)) else Flt.fin (f.roundFin q)

/-- Addition in format `f`. -/
def Flt.add (f : Fmt) : Flt → Flt → Flt
  | Flt.fin a, Flt.fin b => f.round (a + b)
  | Flt.fin _, Flt.inf t => Flt.inf t
  | Flt.inf s, Flt.fin _ => Flt.inf s
  | Flt.inf s, Flt.inf t => if s = t then Flt.inf s else Flt.nan
  | _, _ => Flt.nan

/-- Multiplication in format `f`. -/
def Flt.mul (f : Fmt) : Flt → Flt → Flt
  | Flt.fin a, Flt.fin b => f.round (a * b)
  | Flt.fin a, Flt.inf t => if a = 0 then Flt.nan else Flt.inf (xor (decide (a < 0)) t)
  | Flt.inf s, Flt.fin b => if b = 0 then Flt.nan else Flt.inf (xor s (decide (b < 0)))
  | Flt.inf s, Flt.inf t => Flt.inf (xor s t)
  | _, _ => Flt.nan

/-- Division in format `f` by a finite non-zero constant (here the `2` of `/ 2`). -/
def Flt.divBy (f : Fmt) (c : ℚ) : Flt → Flt
  | Flt.fin a => f.round (a / c)
  | Flt.inf s => Flt.inf (xor s (decide (c < 0)))
  | Flt.nan => Flt.nan

/-- The comparison `x < y`; false when an operand is NaN. -/
def Flt.lt : Flt → Flt → Bool
  | Flt.fin a, Flt.fin b => decide (a < b)
  | Flt.fin _, Flt.inf t => !t
  | Flt.inf s, Flt.fin _ => s
  | Flt.inf s, Flt.inf t => s && !t
  | _, _ => false

/-- The statement `lpa_vol = lrint(x)`: `lrint` rounds in the current rounding direction;
for NaN, an infinity, or a value outside the range of `int` the source does not determine
the result, which is then the oracle `unspecified`. -/
def lrint (unspecified : Flt → Int) : Flt → Int
  | Flt.fin q => if -2 ^ 31 ≤ rne q ∧ rne q < 2 ^ 31 then rne q else unspecified (Flt.fin q)
  | x => unspecified x

/-! ## setVolume -/

/-- The local `volume` of `setVolume` after the two clamping branches. -/
def clampedVolume (left right : Flt) : Flt :=
  let volume := Flt.divBy binary32 2 (Flt.add binary32 left right)
  if Flt.lt volume (Flt.fin 0) then Flt.fin 0
  else if Flt.lt (Flt.fin 1) volume then Flt.fin 1
  else volume

/-- The argument of `lrint`: `(volume * 100.0) + 0.5`, evaluated in `double`. -/
def scaledVolume (volume : Flt) : Flt :=
  Flt.add binary64 (Flt.mul binary64 volume (Flt.fin 100)) (Flt.fin (1 / 2))

/-- The value `lpa_vol` that `setVolume` hands to `setLpaVolume`. -/
def lpaVolume (unspecified : Flt → Int) (left right : Flt) : Int :=
  lrint unspecified (scaledVolume (clampedVolume left right))

/-- Model of `AudioStreamOutALSA::setVolume(left, right)`. -/
def setVolume (u : UseCaseNames) (unspecified : Flt → Int) (s : Stream) (left right : Flt) :
    Int × Stream :=
  if s.useCase = u.SND_USE_CASE_VERB_HIFI_LOW_POWER ∨
      s.useCase = u.SND_USE_CASE_MOD_PLAY_LPA then
    (NO_ERROR, s.emit (Event.setLpaVolume (lpaVolume unspecified left right)))
  else (INVALID_OPERATION, s)

/-- Round half up, the rounding the specification names: the nearest integer, a tie going
to the larger one. -/
def roundHalfUp (q : ℚ) : ℤ := ⌊q + 1 / 2⌋

/-! ## Observations on the log -/

/-- The `(offset, count)` of every `pcm_write` call of the log, in order. -/
def pcmWrites (log : List Event) : List (Nat × Nat) :=
  log.filterMap fun e =>
    match e with
    | Event.pcm_write offset count => some (offset, count)
    | _ => none

/-- Number of `pcm_write` calls in the log. -/
def countWrites (log : List Event) : Nat := (pcmWrites log).length

/-- Number of `module->open` calls in the log. -/
def countOpens (log : List Event) : Nat := log.count Event.module_open

/-- Number of `acquire_wake_lock` calls in the log. -/
def acquires (log : List Event) : Nat := log.count Event.acquire_wake_lock

/-- Number of `release_wake_lock` calls in the log. -/
def releases (log : List Event) : Nat := log.count Event.release_wake_lock

/-- The percentages passed to `setLpaVolume`, in order. -/
def volumeCalls (log : List Event) : List Int :=
  log.filterMap fun e =>
    match e with
    | Event.setLpaVolume percent => some percent
    | _ => none

/-- The wake-lock seen from the service: replay one event on "is the lock held";
`none` records an acquire of a held lock or a release of a lock that is not held. -/
def lockStep (held : Option Bool) (e : Event) : Option Bool :=
  match held, e with
  | some false, Event.acquire_wake_lock => some true
  | some true, Event.acquire_wake_lock => none
  | some true, Event.release_wake_lock => some false
  | some false, Event.release_wake_lock => none
  | h, _ => h

/-- Replay of a whole log from "not held". -/
def lockAfter (log : List Event) : Option Bool := log.foldl lockStep (some false)

/-- The stream after `j` further chunk writes that all succeed on a connection of period
`p`, starting at byte offset `sent` and at driver call number `writes`. -/
def afterChunks (d : Driver) (p : Nat) : Nat → Stream → Nat → Nat → Stream
  | 0, s, _, _ => s
  | j + 1, s, sent, writes =>
    afterChunks d p j
      { s.emit (Event.pcm_write sent p) with
        mFrameCount := (s.mFrameCount + (d.pcm_write writes).toNat) % 2 ^ 32 }
      (sent + p) (writes + 1)

/-- Frames the driver reported for its first `k` chunk writes of a call. -/
def framesReported (d : Driver) (k : Nat) : Nat :=
  ∑ i ∈ Finset.range k, (d.pcm_write i).toNat

/-- Number of loop iterations for `bytes` bytes at period `p`: `max 1 ⌈bytes / p⌉`. -/
def chunkCount (bytes p : Nat) : Nat := max 1 ((bytes + p - 1) / p)

/-- The state in which `write` reaches its loop: after the wake-lock test and, when the
connection was closed, after the lazy open. -/
def writeEntry (u : UseCaseNames) (d : Driver) (s : Stream) : Stream :=
  match (acquirePowerLock s).handle with
  | none => lazyOpen u d (acquirePowerLock s)
  | some _ => acquirePowerLock s

/-- Use-case names as the ALSA use-case manager header spells them (for examples). -/
def stockNames : UseCaseNames :=
  { SND_USE_CASE_VERB_INACTIVE := "Inactive"
    SND_USE_CASE_VERB_HIFI := "HiFi"
    SND_USE_CASE_VERB_HIFI_LOW_POWER := "HiFi Low Power"
    SND_USE_CASE_MOD_PLAY_MUSIC := "Play Music"
    SND_USE_CASE_MOD_PLAY_LPA := "Play LPA"
    MAX_STR_LEN := 50 }

/-- A driver (for examples) whose `pcm_write` answers are given by `answers`, whose
`open` always yields a connection of period `p`, and whose `standby` keeps the connection. -/
def scriptedDriver (p : Nat) (answers : Nat → Int) : Driver :=
  { use_case := none
    module_open := fun _ => some ⟨p⟩
    pcm_write := answers
    module_standby := fun h => h }

/-- A driver (for examples) whose `open` never yields a connection. -/
def deadDriver : Driver :=
  { use_case := none
    module_open := fun _ => none
    pcm_write := fun _ => 0
    module_standby := fun h => h }

/-- Frame counts (for examples) that sum to `2 ^ 32` over three chunks, each within the
range of a 32-bit `long`. -/
def wrapAnswers : Nat → Int := fun i => if i < 2 then 2147483647 else 2

/-- States a stream can be in: a fresh stream, then any sequence of completed calls of
`write`, `standby`, `close` and `setVolume` with any answers of the collaborators
(`latency` and `getRenderPosition` are `const` and leave the state as it is), interleaved
with changes the owner of the shared handle makes to it. -/
inductive Reachable (u : UseCaseNames) : Stream → Prop where
  | fresh (handle : Option Pcm) (useCase : String) (latency : Nat) :
      Reachable u (fresh handle useCase latency)
  | write {s : Stream} (d : Driver) (fuel bytes : Nat) (r : Int) (s' : Stream) :
      Reachable u s → write u d fuel s bytes = some (r, s') → Reachable u s'
  | standby {s : Stream} (d : Driver) : Reachable u s → Reachable u (standby d s).2
  | close {s : Stream} : Reachable u s → Reachable u (close s).2
  | setVolume {s : Stream} (unspecified : Flt → Int) (left right : Flt) :
      Reachable u s → Reachable u (setVolume u unspecified s left right).2
  | shared {s : Stream} (handle : Option Pcm) (useCase : String) (latency : Nat) :
      Reachable u s →
      Reachable u { s with handle := handle, useCase := useCase, latency := latency }

/-- The state (for examples) a fresh stream is in after a `write` whose lazy open failed. -/
def afterFailedOpen : Stream :=
  { mPowerLock := true, mFrameCount := 0, handle := none, useCase := "HiFi", latency := 0,
    log := [Event.acquire_wake_lock, Event.snd_use_case_get, Event.route,
      Event.snd_use_case_set "_verb" "HiFi", Event.module_open] }

/-! ## Lemmas on the log observers -/

theorem emit_log (s : Stream) (e : Event) : (s.emit e).log = s.log ++ [e] := rfl

theorem emit_mFrameCount (s : Stream) (e : Event) :
    (s.emit e).mFrameCount = s.mFrameCount := rfl

theorem pcmWrites_append (l₁ l₂ : List Event) :
    pcmWrites (l₁ ++ l₂) = pcmWrites l₁ ++ pcmWrites l₂ := by
  simp [pcmWrites, List.filterMap_append]

theorem countWrites_append (l₁ l₂ : List Event) :
    countWrites (l₁ ++ l₂) = countWrites l₁ + countWrites l₂ := by
  simp [countWrites, pcmWrites_append]

theorem countOpens_append (l₁ l₂ : List Event) :
    countOpens (l₁ ++ l₂) = countOpens l₁ + countOpens l₂ := by
  simp [countOpens]

theorem lockAfter_append (l₁ l₂ : List Event) :
    lockAfter (l₁ ++ l₂) = l₂.foldl lockStep (lockAfter l₁) := by
  simp [lockAfter, List.foldl_append]

/-! ## Lemmas on the write loop -/

theorem afterChunks_handle (d : Driver) (p : Nat) :
    ∀ (j : Nat) (s : Stream) (sent w : Nat), (afterChunks d p j s sent w).handle = s.handle := by
  intro j
  induction j with
  | zero => intro s sent w; rfl
  | succ j ih => intro s sent w; simp [afterChunks, ih, Stream.emit]

theorem afterChunks_pcmWrites (d : Driver) (p : Nat) :
    ∀ (j : Nat) (s : Stream) (sent w : Nat),
      pcmWrites (afterChunks d p j s sent w).log =
        pcmWrites s.log ++ (List.range j).map (fun i => (sent + i * p, p)) := by
  intro j
  induction j with
  | zero => intro s sent w; simp [afterChunks]
  | succ j ih =>
    intro s sent w
    simp only [afterChunks, ih, Stream.emit, pcmWrites_append]
    rw [List.range_succ_eq_map]
    simp [pcmWrites, List.map_map, Function.comp_def, Nat.succ_mul, Nat.add_assoc,
      Nat.add_comm p]

theorem afterChunks_countOpens (d : Driver) (p : Nat) :
    ∀ (j : Nat) (s : Stream) (sent w : Nat),
      countOpens (afterChunks d p j s sent w).log = countOpens s.log := by
  intro j
  induction j with
  | zero => intro s sent w; rfl
  | succ j ih =>
    intro s sent w
    rw [afterChunks, ih]
    simp [Stream.emit, countOpens]

theorem afterChunks_acquires (d : Driver) (p : Nat) :
    ∀ (j : Nat) (s : Stream) (sent w : Nat),
      acquires (afterChunks d p j s sent w).log = acquires s.log := by
  intro j
  induction j with
  | zero => intro s sent w; rfl
  | succ j ih =>
    intro s sent w
    rw [afterChunks, ih]
    simp [Stream.emit, acquires]

theorem afterChunks_mFrameCount_mod (d : Driver) (p : Nat) :
    ∀ (j : Nat) (s : Stream) (sent w : Nat),
      (afterChunks d p j s sent w).mFrameCount % 2 ^ 32 =
        (s.mFrameCount + ∑ i ∈ Finset.range j, (d.pcm_write (w + i)).toNat) % 2 ^ 32 := by
  intro j
  induction j with
  | zero => intro s sent w; simp [afterChunks]
  | succ j ih =>
    intro s sent w
    simp only [afterChunks, ih, Stream.emit, Finset.sum_range_succ', Nat.add_zero]
    have : ∀ i, w + 1 + i = w + (i + 1) := fun i => by omega
    simp only [this]
    omega

theorem afterChunks_mFrameCount_lt (d : Driver) (p : Nat) :
    ∀ (j : Nat) (s : Stream) (sent w : Nat), 0 < j →
      (afterChunks d p j s sent w).mFrameCount < 2 ^ 32 := by
  intro j
  induction j with
  | zero => intro s sent w h; omega
  | succ j ih =>
    intro s sent w _
    rcases Nat.eq_zero_or_pos j with h0 | hpos
    · subst h0
      simp only [afterChunks, Stream.emit]
      exact Nat.mod_lt _ (by norm_num)
    · simp only [afterChunks]
      exact ih _ _ _ hpos

theorem afterChunks_mFrameCount (d : Driver) (p : Nat) (j : Nat) (s : Stream) (sent : Nat)
    (hj : 0 < j) :
    (afterChunks d p j s sent 0).mFrameCount =
      (s.mFrameCount + framesReported d j) % 2 ^ 32 := by
  have h1 := afterChunks_mFrameCount_mod d p j s sent 0
  have h2 := afterChunks_mFrameCount_lt d p j s sent 0 hj
  rw [Nat.mod_eq_of_lt h2] at h1
  simpa [framesReported] using h1

/-- One iteration whose chunk write succeeds and after which the loop goes on. -/
theorem writeLoop_ok_continue (d : Driver) (bytes fuel : Nat) (s : Stream) (sent : Nat)
    (wp : Int) (w o p : Nat) (hh : s.handle = some ⟨p⟩) (hn : 0 ≤ d.pcm_write w)
    (hlt : sent + p < bytes) :
    ∃ wp', writeLoop d bytes (fuel + 1) s sent wp w o =
      writeLoop d bytes fuel (afterChunks d p 1 s sent w) (sent + p) wp' (w + 1) o := by
  have h1 : d.pcm_write w ≠ -EBADFD := by
    intro h; rw [h] at hn; exact absurd hn (by decide)
  have h2 : ¬ d.pcm_write w < 0 := not_lt.mpr hn
  refine ⟨(if wp < (p : Int) then (p : Int) else wp) - p, ?_⟩
  rw [writeLoop]
  simp only [hh, h1, h2, if_false, afterChunks, Stream.emit, Option.isSome_some, hlt,
    and_self, if_true]

/-- One iteration whose chunk write succeeds and completes the byte count. -/
theorem writeLoop_ok_last (d : Driver) (bytes fuel : Nat) (s : Stream) (sent : Nat)
    (wp : Int) (w o p : Nat) (hh : s.handle = some ⟨p⟩) (hn : 0 ≤ d.pcm_write w)
    (hge : bytes ≤ sent + p) :
    writeLoop d bytes (fuel + 1) s sent wp w o =
      some (((sent + p : Nat) : Int), afterChunks d p 1 s sent w) := by
  have h1 : d.pcm_write w ≠ -EBADFD := by
    intro h; rw [h] at hn; exact absurd hn (by decide)
  have h2 : ¬ d.pcm_write w < 0 := not_lt.mpr hn
  have h3 : ¬ sent + p < bytes := not_lt.mpr hge
  rw [writeLoop]
  simp only [hh, h1, h2, if_false, afterChunks, Stream.emit, h3, and_false]

/-- One iteration whose chunk write fails with a code other than `-EBADFD`. -/
theorem writeLoop_error (d : Driver) (bytes fuel : Nat) (s : Stream) (sent : Nat)
    (wp : Int) (w o p : Nat) (hh : s.handle = some ⟨p⟩) (hneg : d.pcm_write w < 0)
    (hne : d.pcm_write w ≠ -EBADFD) :
    writeLoop d bytes (fuel + 1) s sent wp w o =
      some (d.pcm_write w, s.emit (Event.pcm_write sent p)) := by
  rw [writeLoop]
  simp only [hh, hne, hneg, if_false, if_true]

/-- One iteration whose chunk write answers `-EBADFD`, the re-open leaving the connection
open, with bytes still to send. -/
theorem writeLoop_badfd_continue (d : Driver) (bytes fuel : Nat) (s : Stream) (sent : Nat)
    (wp : Int) (w o p q : Nat) (hh : s.handle = some ⟨p⟩) (hbad : d.pcm_write w = -EBADFD)
    (hopen : d.module_open o = some ⟨q⟩) (hlt : sent < bytes) :
    ∃ wp', writeLoop d bytes (fuel + 1) s sent wp w o =
      writeLoop d bytes fuel
        { (s.emit (Event.pcm_write sent p)).emit Event.module_open with handle := some ⟨q⟩ }
        sent wp' (w + 1) (o + 1) := by
  refine ⟨if wp < (p : Int) then (p : Int) else wp, ?_⟩
  rw [writeLoop]
  simp only [hh, hbad, if_true, hopen, Option.isSome_some, hlt, and_self]

/-- Several iterations in a row: `j` chunk writes succeed and the loop goes on after each. -/
theorem writeLoop_ok_steps (d : Driver) (bytes fuel p : Nat) :
    ∀ (j : Nat) (s : Stream) (sent : Nat) (wp : Int) (w o : Nat),
      s.handle = some ⟨p⟩ →
      (∀ i, i < j → 0 ≤ d.pcm_write (w + i)) →
      (j = 0 ∨ sent + j * p < bytes) →
      ∃ wp', writeLoop d bytes (fuel + j) s sent wp w o =
        writeLoop d bytes fuel (afterChunks d p j s sent w) (sent + j * p) wp' (w + j) o := by
  intro j
  induction j with
  | zero => intro s sent wp w o _ _ _; exact ⟨wp, by simp [afterChunks]⟩
  | succ j ih =>
    intro s sent wp w o hh hok hlt
    have hlt' : sent + (j + 1) * p < bytes := by
      rcases hlt with h | h
      · omega
      · exact h
    have hp1 : sent + p < bytes := by
      have : p ≤ (j + 1) * p := Nat.le_mul_of_pos_left p (Nat.succ_pos j)
      omega
    obtain ⟨wp1, e1⟩ := writeLoop_ok_continue d bytes (fuel + j) s sent wp w o p hh
      (by simpa using hok 0 (Nat.succ_pos j)) hp1
    have hh1 : (afterChunks d p 1 s sent w).handle = some ⟨p⟩ := by
      rw [afterChunks_handle]; exact hh
    obtain ⟨wp2, e2⟩ := ih (afterChunks d p 1 s sent w) (sent + p) wp1 (w + 1) o hh1
      (fun i hi => by
        have := hok (i + 1) (by omega)
        rwa [show w + 1 + i = w + (i + 1) by omega])
      (by
        rcases Nat.eq_zero_or_pos j with h0 | _
        · exact Or.inl h0
        · right
          have : sent + p + j * p = sent + (j + 1) * p := by rw [Nat.succ_mul]; omega
          omega)
    refine ⟨wp2, ?_⟩
    rw [show fuel + (j + 1) = fuel + j + 1 by omega, e1, e2]
    have e3 : sent + p + j * p = sent + (j + 1) * p := by rw [Nat.succ_mul]; omega
    have e4 : w + 1 + j = w + (j + 1) := by omega
    rw [e3, e4]
    rfl

theorem afterChunks_snoc (d : Driver) (p : Nat) :
    ∀ (j : Nat) (s : Stream) (sent w : Nat),
      afterChunks d p 1 (afterChunks d p j s sent w) (sent + j * p) (w + j) =
        afterChunks d p (j + 1) s sent w := by
  intro j
  induction j with
  | zero => intro s sent w; simp [afterChunks]
  | succ j ih =>
    intro s sent w
    have h := ih
      { s.emit (Event.pcm_write sent p) with
        mFrameCount := (s.mFrameCount + (d.pcm_write w).toNat) % 2 ^ 32 }
      (sent + p) (w + 1)
    have e3 : sent + p + j * p = sent + (j + 1) * p := by rw [Nat.succ_mul]; omega
    have e4 : w + 1 + j = w + (j + 1) := by omega
    rw [e3, e4] at h
    exact h

/-- A whole run of the loop without errors: `j` chunk writes after which bytes remain,
then one that completes the byte count. -/
theorem writeLoop_run_ok (d : Driver) (bytes fuel p j : Nat) (s : Stream) (sent : Nat)
    (wp : Int) (w o : Nat) (hh : s.handle = some ⟨p⟩)
    (hok : ∀ i, i < j + 1 → 0 ≤ d.pcm_write (w + i))
    (hlt : j = 0 ∨ sent + j * p < bytes) (hge : bytes ≤ sent + (j + 1) * p) :
    writeLoop d bytes (fuel + (j + 1)) s sent wp w o =
      some (((sent + (j + 1) * p : Nat) : Int), afterChunks d p (j + 1) s sent w) := by
  obtain ⟨wp1, e1⟩ := writeLoop_ok_steps d bytes (fuel + 1) p j s sent wp w o hh
    (fun i hi => hok i (by omega)) hlt
  have hh1 : (afterChunks d p j s sent w).handle = some ⟨p⟩ := by
    rw [afterChunks_handle]; exact hh
  have e2 := writeLoop_ok_last d bytes fuel (afterChunks d p j s sent w) (sent + j * p) wp1
    (w + j) o p hh1 (hok j (by omega)) (by rw [Nat.succ_mul] at hge; omega)
  rw [show fuel + (j + 1) = fuel + 1 + j by omega, e1, e2, afterChunks_snoc]
  have e3 : sent + j * p + p = sent + (j + 1) * p := by rw [Nat.succ_mul]; omega
  rw [e3]

/-! ## Lemmas on the entry of write -/

theorem acquirePowerLock_handle (s : Stream) : (acquirePowerLock s).handle = s.handle := by
  unfold acquirePowerLock; split <;> rfl

theorem acquirePowerLock_mFrameCount (s : Stream) :
    (acquirePowerLock s).mFrameCount = s.mFrameCount := by
  unfold acquirePowerLock; split <;> rfl

theorem acquirePowerLock_mPowerLock (s : Stream) : (acquirePowerLock s).mPowerLock = true := by
  unfold acquirePowerLock; split
  · assumption
  · rfl

theorem acquirePowerLock_log (s : Stream) :
    (acquirePowerLock s).log =
      s.log ++ (if s.mPowerLock then [] else [Event.acquire_wake_lock]) := by
  unfold acquirePowerLock; split <;> simp [Stream.emit]

theorem lazyOpen_handle (u : UseCaseNames) (d : Driver) (s : Stream) :
    (lazyOpen u d s).handle = d.module_open 0 := rfl

theorem lazyOpen_mFrameCount (u : UseCaseNames) (d : Driver) (s : Stream) :
    (lazyOpen u d s).mFrameCount = s.mFrameCount := rfl

theorem lazyOpen_mPowerLock (u : UseCaseNames) (d : Driver) (s : Stream) :
    (lazyOpen u d s).mPowerLock = s.mPowerLock := rfl

theorem lazyOpen_log (u : UseCaseNames) (d : Driver) (s : Stream) :
    ∃ identifier value, (lazyOpen u d s).log =
      s.log ++ [Event.snd_use_case_get, Event.route,
        Event.snd_use_case_set identifier value, Event.module_open] := by
  unfold lazyOpen
  simp only [Stream.emit, List.append_assoc, List.singleton_append]
  split <;> split <;> exact ⟨_, _, rfl⟩

theorem writeEntry_mFrameCount (u : UseCaseNames) (d : Driver) (s : Stream) :
    (writeEntry u d s).mFrameCount = s.mFrameCount := by
  unfold writeEntry
  split
  · rw [lazyOpen_mFrameCount, acquirePowerLock_mFrameCount]
  · rw [acquirePowerLock_mFrameCount]

theorem writeEntry_pcmWrites (u : UseCaseNames) (d : Driver) (s : Stream) :
    pcmWrites (writeEntry u d s).log = pcmWrites s.log := by
  unfold writeEntry
  split
  · obtain ⟨a, b, h⟩ := lazyOpen_log u d (acquirePowerLock s)
    rw [h, acquirePowerLock_log]
    split <;> simp [pcmWrites, List.filterMap_append]
  · rw [acquirePowerLock_log]
    split <;> simp [pcmWrites, List.filterMap_append]

theorem writeEntry_handle_open (u : UseCaseNames) (d : Driver) (s : Stream) (pcm : Pcm)
    (hh : s.handle = some pcm) : (writeEntry u d s).handle = some pcm := by
  unfold writeEntry
  simp only [acquirePowerLock_handle, hh]

theorem writeEntry_handle_closed (u : UseCaseNames) (d : Driver) (s : Stream)
    (hh : s.handle = none) : (writeEntry u d s).handle = d.module_open 0 := by
  unfold writeEntry
  simp only [acquirePowerLock_handle, hh, lazyOpen_handle]

theorem writeEntry_countOpens_open (u : UseCaseNames) (d : Driver) (s : Stream) (pcm : Pcm)
    (hh : s.handle = some pcm) : countOpens (writeEntry u d s).log = countOpens s.log := by
  unfold writeEntry
  simp only [acquirePowerLock_handle, hh, acquirePowerLock_log]
  split <;> simp [countOpens]

theorem writeEntry_acquires (u : UseCaseNames) (d : Driver) (s : Stream) :
    acquires (writeEntry u d s).log = acquires s.log + (if s.mPowerLock then 0 else 1) := by
  unfold writeEntry
  split
  · obtain ⟨a, b, h⟩ := lazyOpen_log u d (acquirePowerLock s)
    rw [h, acquirePowerLock_log]
    cases s.mPowerLock <;> simp [acquires]
  · rw [acquirePowerLock_log]
    cases s.mPowerLock <;> simp [acquires]

theorem writeEntry_countOpens (u : UseCaseNames) (d : Driver) (s : Stream) :
    countOpens (writeEntry u d s).log =
      countOpens s.log + (if s.handle = none then 1 else 0) := by
  unfold writeEntry
  rw [acquirePowerLock_handle]
  cases hh : s.handle with
  | none =>
    obtain ⟨a, b, h⟩ := lazyOpen_log u d (acquirePowerLock s)
    simp only [h, acquirePowerLock_log]
    cases s.mPowerLock <;> simp [countOpens]
  | some pcm =>
    simp only [acquirePowerLock_log]
    cases s.mPowerLock <;> simp [countOpens]

/-- With the connection open, `write` is its loop started from `writeEntry`. -/
theorem write_eq_loop_open (u : UseCaseNames) (d : Driver) (s : Stream) (pcm : Pcm)
    (hh : s.handle = some pcm) (fuel bytes : Nat) :
    write u d fuel s bytes = writeLoop d bytes fuel (writeEntry u d s) 0 (bytes : Int) 0 0 := by
  unfold write writeEntry
  simp only [acquirePowerLock_handle, hh]

/-- With the connection closed and opened by the lazy open, `write` is its loop started
from `writeEntry`. -/
theorem write_eq_loop_lazy (u : UseCaseNames) (d : Driver) (s : Stream) (pcm : Pcm)
    (hh : s.handle = none) (ho : d.module_open 0 = some pcm) (fuel bytes : Nat) :
    write u d fuel s bytes = writeLoop d bytes fuel (writeEntry u d s) 0 (bytes : Int) 0 1 := by
  unfold write writeEntry
  simp only [acquirePowerLock_handle, hh, lazyOpen_handle, ho]

/-- With the connection open, or closed and opened by the lazy open, `write` is its loop
started from `writeEntry`. -/
theorem write_eq_loop (u : UseCaseNames) (d : Driver) (s : Stream) (p : Nat)
    (hconn : s.handle = some ⟨p⟩ ∨ (s.handle = none ∧ d.module_open 0 = some ⟨p⟩)) :
    (writeEntry u d s).handle = some ⟨p⟩ ∧
    ∃ o, ∀ fuel bytes, write u d fuel s bytes =
      writeLoop d bytes fuel (writeEntry u d s) 0 (bytes : Int) 0 o := by
  rcases hconn with hh | ⟨hh, ho⟩
  · exact ⟨writeEntry_handle_open u d s _ hh, 0, write_eq_loop_open u d s _ hh⟩
  · exact ⟨by rw [writeEntry_handle_closed u d s hh, ho], 1,
      write_eq_loop_lazy u d s _ hh ho⟩

theorem writeEntry_countWrites (u : UseCaseNames) (d : Driver) (s : Stream) :
    countWrites (writeEntry u d s).log = countWrites s.log := by
  unfold countWrites; rw [writeEntry_pcmWrites]

theorem afterChunks_countWrites (d : Driver) (p j : Nat) (s : Stream) (sent w : Nat) :
    countWrites (afterChunks d p j s sent w).log = countWrites s.log + j := by
  unfold countWrites; rw [afterChunks_pcmWrites]; simp

theorem emit_pcm_write_countWrites (s : Stream) (offset count : Nat) :
    countWrites (s.emit (Event.pcm_write offset count)).log = countWrites s.log + 1 := by
  rw [emit_log, countWrites_append]; rfl

/-- A call of `write` whose chunk writes all succeed: `K` iterations, `K` being the first
count with `bytes ≤ K * p`. -/
theorem write_all_ok (u : UseCaseNames) (d : Driver) (s : Stream) (p K bytes fuel : Nat)
    (hK : 1 ≤ K)
    (hconn : s.handle = some ⟨p⟩ ∨ (s.handle = none ∧ d.module_open 0 = some ⟨p⟩))
    (hok : ∀ i, i < K → 0 ≤ d.pcm_write i)
    (hlt : K = 1 ∨ (K - 1) * p < bytes) (hge : bytes ≤ K * p) (hfuel : K ≤ fuel) :
    write u d fuel s bytes =
      some (((K * p : Nat) : Int), afterChunks d p K (writeEntry u d s) 0 0) := by
  obtain ⟨he, o, hw⟩ := write_eq_loop u d s p hconn
  obtain ⟨j, rfl⟩ : ∃ j, K = j + 1 := ⟨K - 1, by omega⟩
  obtain ⟨f, rfl⟩ : ∃ f, fuel = f + (j + 1) := ⟨fuel - (j + 1), by omega⟩
  rw [hw, writeLoop_run_ok d bytes f p j (writeEntry u d s) 0 bytes 0 o he
    (fun i hi => by simpa using hok i hi)
    (by rcases hlt with h | h
        · left; omega
        · right; simpa using h)
    (by simpa using hge)]
  simp

theorem chunkCount_pos (bytes p : Nat) : 1 ≤ chunkCount bytes p := by
  unfold chunkCount; exact le_max_left _ _

theorem chunkCount_ge (bytes p : Nat) (hp : 0 < p) : bytes ≤ chunkCount bytes p * p := by
  unfold chunkCount
  have h1 : (bytes + p - 1) / p * p ≤ max 1 ((bytes + p - 1) / p) * p :=
    Nat.mul_le_mul_right p (le_max_right _ _)
  have h2 : bytes + p - 1 < ((bytes + p - 1) / p + 1) * p := by
    rw [Nat.mul_comm]; exact Nat.lt_mul_div_succ _ hp
  rw [Nat.succ_mul] at h2
  omega

theorem chunkCount_lt (bytes p : Nat) (hp : 0 < p) :
    chunkCount bytes p = 1 ∨ (chunkCount bytes p - 1) * p < bytes := by
  unfold chunkCount
  rcases Nat.lt_or_ge ((bytes + p - 1) / p) 2 with h | h
  · left
    rcases Nat.lt_or_ge ((bytes + p - 1) / p) 1 with h' | h'
    · exact max_eq_left (by omega)
    · rw [max_eq_right h']; omega
  · right
    rw [max_eq_right (by omega)]
    have h1 : (bytes + p - 1) / p * p ≤ bytes + p - 1 := Nat.div_mul_le_self _ _
    have h2 : ((bytes + p - 1) / p - 1) * p = (bytes + p - 1) / p * p - p := by
      rw [Nat.sub_mul, Nat.one_mul]
    rw [h2]
    have h3 : 2 * p ≤ (bytes + p - 1) / p * p := Nat.mul_le_mul_right p h
    omega

theorem chunkCount_eq_ceil (bytes p : Nat) (hp : 0 < p) :
    chunkCount bytes p = max 1 ⌈(bytes : ℚ) / p⌉₊ := by
  unfold chunkCount
  congr 1
  have hpq : (0 : ℚ) < p := by exact_mod_cast hp
  apply le_antisymm
  · have h1 : (bytes : ℚ) / p ≤ ⌈(bytes : ℚ) / p⌉₊ := Nat.le_ceil _
    have h2 : bytes ≤ ⌈(bytes : ℚ) / p⌉₊ * p := by
      have := (div_le_iff₀ hpq).mp h1
      exact_mod_cast this
    have h3 : bytes + p - 1 < (⌈(bytes : ℚ) / p⌉₊ + 1) * p := by
      rw [Nat.succ_mul]; omega
    rw [Nat.mul_comm] at h3
    exact Nat.lt_succ_iff.mp ((Nat.div_lt_iff_lt_mul hp).mpr (by rw [Nat.mul_comm]; exact h3))
  · apply Nat.ceil_le.mpr
    rw [div_le_iff₀ hpq]
    have h2 : bytes + p - 1 < ((bytes + p - 1) / p + 1) * p := by
      rw [Nat.mul_comm]; exact Nat.lt_mul_div_succ _ hp
    rw [Nat.succ_mul] at h2
    have h3 : bytes ≤ (bytes + p - 1) / p * p := by omega
    exact_mod_cast h3

/-! ## Claims on write -/

/-- Claim C1 (as amended). For every `periodSize = p > 0`, every `N ≥ 1` and
`byteCount = N * p`, if the connection is open with period `p` (or the lazy open yields
one) and the driver write succeeds on every chunk with non-negative frame counts, then
with fuel for `N` iterations `write` returns `N * p`, has performed exactly `N` driver
writes, and leaves `mFrameCount` equal to its value before plus the reported frames, the
sum being taken modulo `2 ^ 32`.  Along the way the device is opened once exactly when the
connection was closed, and the wake-lock is acquired once exactly when it was not held. -/
theorem write_aligned_success (u : UseCaseNames) (d : Driver) (s : Stream) (p N fuel : Nat)
    (hp : 0 < p) (hN : 1 ≤ N)
    (hconn : s.handle = some ⟨p⟩ ∨ (s.handle = none ∧ d.module_open 0 = some ⟨p⟩))
    (hok : ∀ i, i < N → 0 ≤ d.pcm_write i) (hfuel : N ≤ fuel) :
    ∃ s', write u d fuel s (N * p) = some (((N * p : Nat) : Int), s') ∧
      countWrites s'.log = countWrites s.log + N ∧
      s'.mFrameCount = (s.mFrameCount + framesReported d N) % 2 ^ 32 ∧
      countOpens s'.log = countOpens s.log + (if s.handle = none then 1 else 0) ∧
      acquires s'.log = acquires s.log + (if s.mPowerLock then 0 else 1) := by
  refine ⟨afterChunks d p N (writeEntry u d s) 0 0, ?_, ?_, ?_, ?_, ?_⟩
  · apply write_all_ok u d s p N (N * p) fuel hN hconn hok _ (le_refl _) hfuel
    rcases Nat.eq_or_lt_of_le hN with h | h
    · exact Or.inl h.symm
    · right
      have : (N - 1) * p + p = N * p := by
        rw [← Nat.succ_mul]; congr 1; omega
      omega
  · rw [afterChunks_countWrites, writeEntry_countWrites]
  · rw [afterChunks_mFrameCount d p N _ 0 (by omega), writeEntry_mFrameCount]
  · rw [afterChunks_countOpens, writeEntry_countOpens]
  · rw [afterChunks_acquires, writeEntry_acquires]

/-- Claim C2. If chunk `k = j + 1` of a `write` call is reached (`k = 1`, or bytes remain
after `k - 1` chunks), chunks `1 … k - 1` succeed and the driver's result for chunk `k` is
negative and not `-EBADFD`, then `write` returns exactly that result, the call has made
`k` driver writes and no more, and `mFrameCount` has grown only by the frames reported for
chunks `1 … k - 1` (in the counter's arithmetic); for `k = 1` it is unchanged. -/
theorem write_error_propagates (u : UseCaseNames) (d : Driver) (s : Stream)
    (p j bytes fuel : Nat)
    (hconn : s.handle = some ⟨p⟩ ∨ (s.handle = none ∧ d.module_open 0 = some ⟨p⟩))
    (hreach : j = 0 ∨ j * p < bytes) (hok : ∀ i, i < j → 0 ≤ d.pcm_write i)
    (hneg : d.pcm_write j < 0) (hne : d.pcm_write j ≠ -EBADFD) (hfuel : j + 1 ≤ fuel) :
    ∃ s', write u d fuel s bytes = some (d.pcm_write j, s') ∧
      countWrites s'.log = countWrites s.log + (j + 1) ∧
      s'.mFrameCount =
        (if j = 0 then s.mFrameCount
         else (s.mFrameCount + framesReported d j) % 2 ^ 32) := by
  obtain ⟨he, o, hw⟩ := write_eq_loop u d s p hconn
  obtain ⟨f, rfl⟩ : ∃ f, fuel = f + 1 + j := ⟨fuel - (j + 1), by omega⟩
  obtain ⟨wp1, e1⟩ := writeLoop_ok_steps d bytes (f + 1) p j (writeEntry u d s) 0 bytes 0 o he
    (fun i hi => by simpa using hok i hi) (by simpa using hreach)
  have hh1 : (afterChunks d p j (writeEntry u d s) 0 0).handle = some ⟨p⟩ := by
    rw [afterChunks_handle]; exact he
  have e2 := writeLoop_error d bytes f (afterChunks d p j (writeEntry u d s) 0 0) (0 + j * p)
    wp1 (0 + j) o p hh1 (by simpa using hneg) (by simpa using hne)
  refine ⟨(afterChunks d p j (writeEntry u d s) 0 0).emit (Event.pcm_write (0 + j * p) p),
    ?_, ?_, ?_⟩
  · rw [hw, e1, e2]; simp
  · rw [emit_pcm_write_countWrites, afterChunks_countWrites, writeEntry_countWrites]
    omega
  · rw [emit_mFrameCount]
    rcases Nat.eq_zero_or_pos j with h0 | hpos
    · subst h0
      simp [afterChunks, writeEntry_mFrameCount]
    · rw [if_neg (by omega), afterChunks_mFrameCount d p j _ 0 hpos, writeEntry_mFrameCount]

/-- Claim C3. For every `periodSize = p > 0` and `byteCount = 3 * p` on an open connection,
if the driver answers `-EBADFD` to the second chunk write and succeeds on every other
write, and the re-open leaves the connection open (with the same period), then with fuel
for four iterations `write` returns `3 * p`, has called `module->open` exactly once, and
its chunk writes start at byte offsets `0, p, p, 2p`: the failed attempt neither resets
nor advances `sent`. -/
theorem write_badfd_recovers (u : UseCaseNames) (d : Driver) (s : Stream) (p fuel : Nat)
    (hp : 0 < p) (hh : s.handle = some ⟨p⟩) (hbad : d.pcm_write 1 = -EBADFD)
    (hok : ∀ i, i ≠ 1 → 0 ≤ d.pcm_write i) (hopen : d.module_open 0 = some ⟨p⟩)
    (hfuel : 4 ≤ fuel) :
    ∃ s', write u d fuel s (3 * p) = some (((3 * p : Nat) : Int), s') ∧
      countOpens s'.log = countOpens s.log + 1 ∧
      pcmWrites s'.log = pcmWrites s.log ++ [(0, p), (p, p), (p, p), (2 * p, p)] := by
  have he := writeEntry_handle_open u d s _ hh
  obtain ⟨f, rfl⟩ : ∃ f, fuel = f + (1 + 1) + 1 + 1 := ⟨fuel - 4, by omega⟩
  obtain ⟨wp1, e1⟩ := writeLoop_ok_steps d (3 * p) (f + (1 + 1) + 1) p 1 (writeEntry u d s) 0
    ((3 * p : Nat) : Int) 0 0 he (fun i hi => hok _ (by omega)) (Or.inr (by omega))
  have hh1 : (afterChunks d p 1 (writeEntry u d s) 0 0).handle = some ⟨p⟩ := by
    rw [afterChunks_handle]; exact he
  obtain ⟨wp2, e2⟩ := writeLoop_badfd_continue d (3 * p) (f + (1 + 1))
    (afterChunks d p 1 (writeEntry u d s) 0 0) (0 + 1 * p) wp1 (0 + 1) 0 p p hh1
    (by simpa using hbad) hopen (by omega)
  have e3 := writeLoop_run_ok d (3 * p) f p 1
    { ((afterChunks d p 1 (writeEntry u d s) 0 0).emit (Event.pcm_write (0 + 1 * p) p)).emit
        Event.module_open with handle := some ⟨p⟩ }
    (0 + 1 * p) wp2 (0 + 1 + 1) (0 + 1) rfl (fun i hi => hok _ (by omega))
    (Or.inr (by omega)) (by omega)
  refine ⟨afterChunks d p (1 + 1)
    { ((afterChunks d p 1 (writeEntry u d s) 0 0).emit (Event.pcm_write (0 + 1 * p) p)).emit
        Event.module_open with handle := some ⟨p⟩ } (0 + 1 * p) (0 + 1 + 1), ?_, ?_, ?_⟩
  · rw [write_eq_loop_open u d s _ hh, e1, e2, e3]
    congr 2
    push_cast
    ring
  · rw [afterChunks_countOpens]
    simp [Stream.emit, countOpens_append, afterChunks_countOpens,
      writeEntry_countOpens_open u d s _ hh]
    simp [countOpens]
  · rw [afterChunks_pcmWrites]
    simp [Stream.emit, pcmWrites_append, afterChunks_pcmWrites, writeEntry_pcmWrites]
    simp [pcmWrites, List.range_succ]
    omega

/-- Claim C4. For every `write` call made while the connection is closed, if the connection
is still closed after the driver's open, then `write` returns `0` (whatever the fuel),
issues no `pcm_write`, and leaves `mFrameCount` unchanged. -/
theorem write_device_unavailable (u : UseCaseNames) (d : Driver) (s : Stream)
    (bytes fuel : Nat) (hh : s.handle = none) (hopen : d.module_open 0 = none) :
    ∃ s', write u d fuel s bytes = some (0, s') ∧
      countWrites s'.log = countWrites s.log ∧
      s'.mFrameCount = s.mFrameCount ∧ s'.handle = none := by
  refine ⟨writeEntry u d s, ?_, ?_, writeEntry_mFrameCount u d s, ?_⟩
  · unfold write writeEntry
    simp only [acquirePowerLock_handle, hh, lazyOpen_handle, hopen]
  · simp [countWrites, writeEntry_pcmWrites]
  · rw [writeEntry_handle_closed u d s hh, hopen]

/-- Claim C10. For every `periodSize = p > 0` and every `byteCount` (zero and unaligned
counts included), on an open connection whose driver succeeds on every chunk, `write`
performs exactly `max 1 ⌈byteCount / p⌉` driver writes, each of one full period and at
consecutive period offsets, and returns that count times `p`; the returned count is a
multiple of `p`, never less than `byteCount`, and strictly greater whenever `byteCount`
is `0` or not a multiple of `p`. -/
theorem write_chunk_count (u : UseCaseNames) (d : Driver) (s : Stream) (p bytes fuel : Nat)
    (hp : 0 < p) (hh : s.handle = some ⟨p⟩)
    (hok : ∀ i, i < chunkCount bytes p → 0 ≤ d.pcm_write i)
    (hfuel : chunkCount bytes p ≤ fuel) :
    chunkCount bytes p = max 1 ⌈(bytes : ℚ) / p⌉₊ ∧
    ∃ s', write u d fuel s bytes = some (((chunkCount bytes p * p : Nat) : Int), s') ∧
      countWrites s'.log = countWrites s.log + chunkCount bytes p ∧
      pcmWrites s'.log =
        pcmWrites s.log ++ (List.range (chunkCount bytes p)).map (fun i => (i * p, p)) ∧
      p ∣ chunkCount bytes p * p ∧
      bytes ≤ chunkCount bytes p * p ∧
      (bytes = 0 ∨ ¬ p ∣ bytes → bytes < chunkCount bytes p * p) := by
  refine ⟨chunkCount_eq_ceil bytes p hp,
    afterChunks d p (chunkCount bytes p) (writeEntry u d s) 0 0, ?_, ?_, ?_,
    Dvd.intro_left _ rfl, chunkCount_ge bytes p hp, ?_⟩
  · exact write_all_ok u d s p _ bytes fuel (chunkCount_pos bytes p) (Or.inl hh) hok
      (chunkCount_lt bytes p hp) (chunkCount_ge bytes p hp) hfuel
  · rw [afterChunks_countWrites, writeEntry_countWrites]
  · simp [afterChunks_pcmWrites, writeEntry_pcmWrites]
  · intro h
    rcases Nat.lt_or_ge bytes (chunkCount bytes p * p) with hlt | hge
    · exact hlt
    · exfalso
      have heq : bytes = chunkCount bytes p * p :=
        le_antisymm (chunkCount_ge bytes p hp) hge
      have h1 := chunkCount_pos bytes p
      rcases h with h0 | hnd
      · have : p ≤ chunkCount bytes p * p := Nat.le_mul_of_pos_left p h1
        omega
      · exact hnd (heq ▸ Dvd.intro_left _ rfl)

/-- Witness of C1 (as amended): a fresh stream on a closed connection, period 4, three
chunks of four frames each. -/
theorem write_aligned_success_witness :
    (0 < 4 ∧ 1 ≤ 3 ∧ (fresh none "" 0).handle = none) ∧
    ∃ s', write stockNames (scriptedDriver 4 fun _ => 4) 3 (fresh none "" 0) (3 * 4) =
        some (((3 * 4 : Nat) : Int), s') ∧
      countWrites s'.log = countWrites (fresh none "" 0).log + 3 ∧
      s'.mFrameCount =
        ((fresh none "" 0).mFrameCount + framesReported (scriptedDriver 4 fun _ => 4) 3)
          % 2 ^ 32 ∧
      countOpens s'.log = countOpens (fresh none "" 0).log +
        (if (fresh none "" 0).handle = none then 1 else 0) ∧
      acquires s'.log = acquires (fresh none "" 0).log +
        (if (fresh none "" 0).mPowerLock then 0 else 1) :=
  ⟨⟨by decide, by decide, rfl⟩,
    write_aligned_success stockNames (scriptedDriver 4 fun _ => 4) (fresh none "" 0) 4 3 3
      (by decide) (by decide) (Or.inr ⟨rfl, rfl⟩) (fun _ _ => (by decide : (0 : Int) ≤ 4))
      (le_refl _)⟩

/-- Claim C1, counterexample to the claim as stated. A fresh stream (`mFrameCount = 0`) on an
open connection of period 1 writes 3 bytes; the driver reports `2147483647`, `2147483647`
and `2` frames.  `write` returns 3 after three driver writes, and `mFrameCount` is `0`
afterwards, not `0 + 4294967296`. -/
theorem write_frame_count_wraps :
    (write stockNames (scriptedDriver 1 wrapAnswers) 3 (fresh (some ⟨1⟩) "" 0) (3 * 1)).map
        (fun r => (r.1, countWrites r.2.log, r.2.mFrameCount)) = some (3, 3, 0) ∧
    (fresh (some ⟨1⟩) "" 0).mFrameCount + framesReported (scriptedDriver 1 wrapAnswers) 3
      = 4294967296 :=
  ⟨by decide, by decide⟩

/-- Witness of C2: period 4, 12 bytes, the second chunk write answers `-5`. -/
theorem write_error_propagates_witness :
    ((scriptedDriver 4 fun i => if i = 1 then -5 else 4).pcm_write 1 < 0 ∧
      (1 = 0 ∨ 1 * 4 < 12)) ∧
    ∃ s', write stockNames (scriptedDriver 4 fun i => if i = 1 then -5 else 4) 2
          (fresh (some ⟨4⟩) "" 0) 12 =
        some ((scriptedDriver 4 fun i => if i = 1 then -5 else 4).pcm_write 1, s') ∧
      countWrites s'.log = countWrites (fresh (some ⟨4⟩) "" 0).log + (1 + 1) ∧
      s'.mFrameCount =
        (if 1 = 0 then (fresh (some ⟨4⟩) "" 0).mFrameCount
         else ((fresh (some ⟨4⟩) "" 0).mFrameCount +
            framesReported (scriptedDriver 4 fun i => if i = 1 then -5 else 4) 1) % 2 ^ 32) :=
  ⟨⟨by decide, by decide⟩,
    write_error_propagates stockNames (scriptedDriver 4 fun i => if i = 1 then -5 else 4)
      (fresh (some ⟨4⟩) "" 0) 4 1 12 2 (Or.inl rfl) (by decide)
      (fun i hi => by
        have h0 : i = 0 := by omega
        subst h0; decide)
      (by decide) (by decide) (le_refl _)⟩

/-- Witness of C3: period 4, 12 bytes, the second chunk write answers `-EBADFD`. -/
theorem write_badfd_recovers_witness :
    (0 < 4 ∧ (scriptedDriver 4 fun i => if i = 1 then -77 else 4).pcm_write 1 = -EBADFD) ∧
    ∃ s', write stockNames (scriptedDriver 4 fun i => if i = 1 then -77 else 4) 4
          (fresh (some ⟨4⟩) "" 0) (3 * 4) = some (((3 * 4 : Nat) : Int), s') ∧
      countOpens s'.log = countOpens (fresh (some ⟨4⟩) "" 0).log + 1 ∧
      pcmWrites s'.log =
        pcmWrites (fresh (some ⟨4⟩) "" 0).log ++ [(0, 4), (4, 4), (4, 4), (2 * 4, 4)] :=
  ⟨⟨by decide, by decide⟩,
    write_badfd_recovers stockNames (scriptedDriver 4 fun i => if i = 1 then -77 else 4)
      (fresh (some ⟨4⟩) "" 0) 4 4 (by decide) rfl (by decide)
      (fun i hi => by simp [scriptedDriver, hi]) rfl (le_refl _)⟩

/-- Witness of C4: a fresh stream on a closed connection whose open fails. -/
theorem write_device_unavailable_witness :
    ((fresh none "" 0).handle = none ∧ deadDriver.module_open 0 = none) ∧
    ∃ s', write stockNames deadDriver 0 (fresh none "" 0) 12 = some (0, s') ∧
      countWrites s'.log = countWrites (fresh none "" 0).log ∧
      s'.mFrameCount = (fresh none "" 0).mFrameCount ∧ s'.handle = none :=
  ⟨⟨rfl, rfl⟩, write_device_unavailable stockNames deadDriver (fresh none "" 0) 12 0 rfl rfl⟩

/-- Witness of C10: period 4 and 9 bytes give three chunk writes and a return of 12. -/
theorem write_chunk_count_witness :
    (0 < 4 ∧ chunkCount 9 4 = 3) ∧
    (chunkCount 9 4 = max 1 ⌈((9 : ℕ) : ℚ) / (4 : ℕ)⌉₊ ∧
    ∃ s', write stockNames (scriptedDriver 4 fun _ => 4) 3 (fresh (some ⟨4⟩) "" 0) 9 =
        some (((chunkCount 9 4 * 4 : Nat) : Int), s') ∧
      countWrites s'.log = countWrites (fresh (some ⟨4⟩) "" 0).log + chunkCount 9 4 ∧
      pcmWrites s'.log =
        pcmWrites (fresh (some ⟨4⟩) "" 0).log ++
          (List.range (chunkCount 9 4)).map (fun i => (i * 4, 4)) ∧
      4 ∣ chunkCount 9 4 * 4 ∧
      9 ≤ chunkCount 9 4 * 4 ∧
      (9 = 0 ∨ ¬ 4 ∣ 9 → 9 < chunkCount 9 4 * 4)) :=
  ⟨⟨by decide, by decide⟩,
    write_chunk_count stockNames (scriptedDriver 4 fun _ => 4) (fresh (some ⟨4⟩) "" 0) 4 9 3
      (by decide) rfl (fun _ _ => (by decide : (0 : Int) ≤ 4)) (by decide)⟩

/-! ## standby, close and the wake-lock -/

theorem lockStep_none (e : Event) : lockStep none e = none := by
  cases e <;> rfl

theorem foldl_lockStep_none (l : List Event) : l.foldl lockStep none = none := by
  induction l with
  | nil => rfl
  | cons e l ih => rw [List.foldl_cons, lockStep_none, ih]

/-- A replay that ends in "held = b" saw one more acquire than release exactly when the
lock went from not held to held. -/
theorem foldl_lockStep_count (l : List Event) :
    ∀ b₀ b : Bool, l.foldl lockStep (some b₀) = some b →
      (acquires l : Int) - releases l = (if b then 1 else 0) - (if b₀ then 1 else 0) := by
  induction l with
  | nil =>
    intro b₀ b h
    simp only [List.foldl_nil, Option.some.injEq] at h
    subst h
    simp [acquires, releases]
  | cons e l ih =>
    intro b₀ b h
    rw [List.foldl_cons] at h
    cases e <;> cases b₀ <;>
      simp only [lockStep, foldl_lockStep_none] at h <;>
      first
      | exact absurd h (by simp)
      | skip
    all_goals
      have hrec := ih _ _ h
      simp only [acquires, releases, List.count_cons] at hrec ⊢
      simp at hrec ⊢
      omega

theorem lockAfter_count (l : List Event) (b : Bool) (h : lockAfter l = some b) :
    (acquires l : Int) - releases l = (if b then 1 else 0) := by
  have := foldl_lockStep_count l false b h
  simpa using this

theorem lockAfter_emit_neutral (s : Stream) (e : Event)
    (h1 : e ≠ Event.acquire_wake_lock) (h2 : e ≠ Event.release_wake_lock) :
    lockAfter (s.emit e).log = lockAfter s.log := by
  rw [emit_log, lockAfter_append, List.foldl_cons, List.foldl_nil]
  cases e <;> first | exact absurd rfl h1 | exact absurd rfl h2 | skip
  all_goals (cases lockAfter s.log with
    | none => rfl
    | some b => cases b <;> rfl)

theorem releasePowerLock_mPowerLock (s : Stream) : (releasePowerLock s).mPowerLock = false := by
  unfold releasePowerLock
  split
  · rfl
  · simpa using ‹¬ s.mPowerLock = true›

theorem releasePowerLock_log (s : Stream) :
    (releasePowerLock s).log =
      s.log ++ (if s.mPowerLock then [Event.release_wake_lock] else []) := by
  unfold releasePowerLock; split <;> simp [Stream.emit]

theorem releasePowerLock_lockAfter (s : Stream) (h : lockAfter s.log = some s.mPowerLock) :
    lockAfter (releasePowerLock s).log = some false := by
  rw [releasePowerLock_log, lockAfter_append, h]
  cases s.mPowerLock <;> rfl

theorem acquirePowerLock_lockAfter (s : Stream) (h : lockAfter s.log = some s.mPowerLock) :
    lockAfter (acquirePowerLock s).log = some true := by
  rw [acquirePowerLock_log, lockAfter_append, h]
  cases s.mPowerLock <;> rfl

theorem lazyOpen_lockAfter (u : UseCaseNames) (d : Driver) (s : Stream) :
    lockAfter (lazyOpen u d s).log = lockAfter s.log := by
  obtain ⟨a, b, h⟩ := lazyOpen_log u d s
  rw [h, lockAfter_append]
  cases lockAfter s.log with
  | none => rfl
  | some c => cases c <;> rfl

/-- The loop of `write` neither touches `mPowerLock` nor calls the wake-lock service. -/
theorem writeLoop_lock (d : Driver) (bytes : Nat) :
    ∀ (fuel : Nat) (s : Stream) (sent : Nat) (wp : Int) (w o : Nat) (r : Int) (s' : Stream),
      writeLoop d bytes fuel s sent wp w o = some (r, s') →
      s'.mPowerLock = s.mPowerLock ∧ lockAfter s'.log = lockAfter s.log := by
  intro fuel
  induction fuel with
  | zero => intro s sent wp w o r s' h; simp [writeLoop] at h
  | succ fuel ih =>
    intro s sent wp w o r s' h
    rw [writeLoop] at h
    cases hh : s.handle with
    | none => simp [hh] at h
    | some pcm =>
      simp only [hh] at h
      have hw : lockAfter (s.emit (Event.pcm_write sent pcm.period_size)).log =
          lockAfter s.log := lockAfter_emit_neutral s _ (by simp) (by simp)
      have ho : lockAfter
          ((s.emit (Event.pcm_write sent pcm.period_size)).emit Event.module_open).log =
          lockAfter s.log := by
        rw [lockAfter_emit_neutral _ _ (by simp) (by simp), hw]
      split at h
      · split at h
        · obtain ⟨h1, h2⟩ := ih _ _ _ _ _ _ _ h
          exact ⟨h1, h2.trans ho⟩
        · simp only [Option.some.injEq, Prod.mk.injEq] at h
          obtain ⟨_, rfl⟩ := h
          exact ⟨rfl, ho⟩
      · split at h
        · simp only [Option.some.injEq, Prod.mk.injEq] at h
          obtain ⟨_, rfl⟩ := h
          exact ⟨rfl, hw⟩
        · split at h
          · obtain ⟨h1, h2⟩ := ih _ _ _ _ _ _ _ h
            exact ⟨h1, h2.trans hw⟩
          · simp only [Option.some.injEq, Prod.mk.injEq] at h
            obtain ⟨_, rfl⟩ := h
            exact ⟨rfl, hw⟩

/-- A completed `write` leaves the lock held, and the service has seen a consistent
sequence of calls if it had before. -/
theorem write_lock (u : UseCaseNames) (d : Driver) (fuel bytes : Nat) (s : Stream) (r : Int)
    (s' : Stream) (h : write u d fuel s bytes = some (r, s'))
    (hinv : lockAfter s.log = some s.mPowerLock) :
    s'.mPowerLock = true ∧ lockAfter s'.log = some true := by
  have ha := acquirePowerLock_lockAfter s hinv
  have hl := acquirePowerLock_mPowerLock s
  unfold write at h
  simp only at h
  split at h
  · split at h
    · simp only [Option.some.injEq, Prod.mk.injEq] at h
      obtain ⟨_, rfl⟩ := h
      exact ⟨by rw [lazyOpen_mPowerLock, hl], by rw [lazyOpen_lockAfter, ha]⟩
    · obtain ⟨h1, h2⟩ := writeLoop_lock d bytes _ _ _ _ _ _ _ _ h
      exact ⟨by rw [h1, lazyOpen_mPowerLock, hl], by rw [h2, lazyOpen_lockAfter, ha]⟩
  · obtain ⟨h1, h2⟩ := writeLoop_lock d bytes _ _ _ _ _ _ _ _ h
    exact ⟨by rw [h1, hl], by rw [h2, ha]⟩

theorem standby_mPowerLock (d : Driver) (s : Stream) : (standby d s).2.mPowerLock = false := by
  unfold standby
  exact releasePowerLock_mPowerLock _

theorem close_mPowerLock (s : Stream) : (close s).2.mPowerLock = false := by
  unfold close
  exact releasePowerLock_mPowerLock _

theorem standby_lockAfter (d : Driver) (s : Stream)
    (hinv : lockAfter s.log = some s.mPowerLock) :
    lockAfter (standby d s).2.log = some false := by
  unfold standby
  apply releasePowerLock_lockAfter
  exact (lockAfter_emit_neutral s Event.module_standby (by simp) (by simp)).trans hinv

theorem close_lockAfter (s : Stream) (hinv : lockAfter s.log = some s.mPowerLock) :
    lockAfter (close s).2.log = some false := by
  unfold close ALSAStreamOps_close
  apply releasePowerLock_lockAfter
  exact (lockAfter_emit_neutral s Event.base_close (by simp) (by simp)).trans hinv

theorem setVolume_lock (u : UseCaseNames) (unspecified : Flt → Int) (s : Stream)
    (left right : Flt) :
    (setVolume u unspecified s left right).2.mPowerLock = s.mPowerLock ∧
    lockAfter (setVolume u unspecified s left right).2.log = lockAfter s.log := by
  unfold setVolume
  split
  · exact ⟨rfl, lockAfter_emit_neutral s _ (by simp) (by simp)⟩
  · exact ⟨rfl, rfl⟩

/-- The invariant behind C9: the wake-lock service, replaying the calls it received, holds
the lock exactly when `mPowerLock` says so, and never saw an acquire of a held lock or a
release of a lock that was not held. -/
theorem reachable_lockAfter (u : UseCaseNames) (s : Stream) (h : Reachable u s) :
    lockAfter s.log = some s.mPowerLock := by
  induction h with
  | fresh handle useCase latency => rfl
  | write d fuel bytes r s' _ hw ih =>
    obtain ⟨h1, h2⟩ := write_lock u d fuel bytes _ r s' hw ih
    rw [h1, h2]
  | standby d _ ih => rw [standby_mPowerLock, standby_lockAfter d _ ih]
  | close _ ih => rw [close_mPowerLock, close_lockAfter _ ih]
  | setVolume unspecified left right _ ih =>
    obtain ⟨h1, h2⟩ := setVolume_lock u unspecified _ left right
    rw [h1, h2, ih]
  | shared handle useCase latency _ ih => exact ih

/-- Claim C9. In every state reachable from a fresh stream by completed calls of `write`,
`standby`, `close` and `setVolume` with any answers of the collaborators, the number of
`acquire_wake_lock` calls minus the number of `release_wake_lock` calls is 1 when
`mPowerLock` is true and 0 when it is false; replayed in order, the calls never acquire a
held lock nor release one that is not held; and after `standby` or `close` the lock is not
held. -/
theorem wake_lock_paired (u : UseCaseNames) (s : Stream) (h : Reachable u s) :
    (acquires s.log : Int) - releases s.log = (if s.mPowerLock then 1 else 0) ∧
    lockAfter s.log = some s.mPowerLock ∧
    (∀ d : Driver, (standby d s).2.mPowerLock = false ∧
      lockAfter (standby d s).2.log = some false) ∧
    ((close s).2.mPowerLock = false ∧ lockAfter (close s).2.log = some false) := by
  have hinv := reachable_lockAfter u s h
  exact ⟨lockAfter_count _ _ hinv, hinv,
    fun d => ⟨standby_mPowerLock d s, standby_lockAfter d s hinv⟩,
    close_mPowerLock s, close_lockAfter s hinv⟩

/-- Witness of C9: the state after a `write` on a fresh stream whose lazy open failed
(the lock is held, one acquire, no release). -/
theorem wake_lock_paired_witness :
    Reachable stockNames afterFailedOpen ∧
    ((acquires afterFailedOpen.log : Int) - releases afterFailedOpen.log =
        (if afterFailedOpen.mPowerLock then 1 else 0) ∧
    lockAfter afterFailedOpen.log = some afterFailedOpen.mPowerLock ∧
    (∀ d : Driver, (standby d afterFailedOpen).2.mPowerLock = false ∧
      lockAfter (standby d afterFailedOpen).2.log = some false) ∧
    ((close afterFailedOpen).2.mPowerLock = false ∧
      lockAfter (close afterFailedOpen).2.log = some false)) :=
  ⟨Reachable.write deadDriver 0 12 0 afterFailedOpen (Reachable.fresh none "" 0) (by rfl),
    wake_lock_paired stockNames afterFailedOpen
      (Reachable.write deadDriver 0 12 0 afterFailedOpen (Reachable.fresh none "" 0)
        (by rfl))⟩

/-- Claim C7. For every stream state, `standby()` returns `NO_ERROR` and leaves
`mFrameCount = 0` and `mPowerLock = false`, releasing the wake-lock once if it was held
and not at all otherwise; a second `standby()` returns `NO_ERROR`, leaves the same
`mFrameCount` and `mPowerLock`, and releases no wake-lock. -/
theorem standby_idempotent (d₁ d₂ : Driver) (s : Stream) :
    (standby d₁ s).1 = NO_ERROR ∧
    (standby d₁ s).2.mFrameCount = 0 ∧
    (standby d₁ s).2.mPowerLock = false ∧
    releases (standby d₁ s).2.log = releases s.log + (if s.mPowerLock then 1 else 0) ∧
    (standby d₂ (standby d₁ s).2).1 = NO_ERROR ∧
    (standby d₂ (standby d₁ s).2).2.mFrameCount = (standby d₁ s).2.mFrameCount ∧
    (standby d₂ (standby d₁ s).2).2.mPowerLock = (standby d₁ s).2.mPowerLock ∧
    releases (standby d₂ (standby d₁ s).2).2.log = releases (standby d₁ s).2.log := by
  have hrel : ∀ (d : Driver) (t : Stream),
      releases (standby d t).2.log = releases t.log + (if t.mPowerLock then 1 else 0) := by
    intro d t
    unfold standby
    simp only [releasePowerLock_log, Stream.emit, releases, List.count_append]
    cases t.mPowerLock <;> simp
  refine ⟨rfl, rfl, standby_mPowerLock d₁ s, hrel d₁ s, rfl, rfl, ?_, ?_⟩
  · rw [standby_mPowerLock, standby_mPowerLock]
  · rw [hrel d₂, standby_mPowerLock]; simp

/-! ## latency -/

/-- Claim C8 (as amended). For every driver latency `latencyMicros` with
`latencyMicros + 999 < 2 ^ 32`, `latency()` returns `⌈latencyMicros / 1000⌉`. -/
theorem latency_ceil (s : Stream) (h : s.latency + 999 < 2 ^ 32) :
    (latency s : Int) = ⌈(s.latency : ℚ) / 1000⌉ := by
  unfold latency USEC_TO_MSEC
  rw [Nat.mod_eq_of_lt h]
  symm
  rw [Int.ceil_eq_iff]
  have h1 : (s.latency + 999) / 1000 * 1000 ≤ s.latency + 999 := Nat.div_mul_le_self _ _
  have h2 : s.latency + 999 < ((s.latency + 999) / 1000 + 1) * 1000 := by
    rw [Nat.mul_comm]; exact Nat.lt_mul_div_succ _ (by norm_num)
  have h1q : (((s.latency + 999) / 1000 : ℕ) : ℚ) * 1000 ≤ (s.latency : ℚ) + 999 := by
    exact_mod_cast h1
  have h2q : (s.latency : ℚ) + 999 < ((((s.latency + 999) / 1000 : ℕ) : ℚ) + 1) * 1000 := by
    exact_mod_cast h2
  have h3 : s.latency ≤ (s.latency + 999) / 1000 * 1000 := by omega
  have h3q : (s.latency : ℚ) ≤ (((s.latency + 999) / 1000 : ℕ) : ℚ) * 1000 := by
    exact_mod_cast h3
  rw [Int.cast_natCast]
  constructor
  · rw [lt_div_iff₀ (by norm_num : (0 : ℚ) < 1000)]
    linarith
  · rw [div_le_iff₀ (by norm_num : (0 : ℚ) < 1000)]
    exact h3q

/-- Witness of C8 (as amended), with the three examples of the specification:
1 µs gives 1 ms, 1000 µs gives 1 ms, 1001 µs gives 2 ms. -/
theorem latency_ceil_witness :
    (fresh none "" 1001).latency + 999 < 2 ^ 32 ∧
    (latency (fresh none "" 1001) : Int) = ⌈((fresh none "" 1001).latency : ℚ) / 1000⌉ ∧
    latency (fresh none "" 1) = 1 ∧ latency (fresh none "" 1000) = 1 ∧
    latency (fresh none "" 1001) = 2 :=
  ⟨by decide, latency_ceil (fresh none "" 1001) (by decide), by decide, by decide, by decide⟩

/-- Claim C8, counterexample to the claim as stated. `4294967295` is representable in the
32-bit latency field, `latency()` returns `0` for it, and `⌈4294967295 / 1000⌉` is
`4294968`. -/
theorem latency_wraps :
    (fresh none "" 4294967295).latency < 2 ^ 32 ∧
    latency (fresh none "" 4294967295) = 0 ∧
    ⌈(((fresh none "" 4294967295).latency : ℕ) : ℚ) / 1000⌉ = 4294968 := by
  refine ⟨by decide, by decide, ?_⟩
  rw [Int.ceil_eq_iff]
  simp only [fresh]
  norm_num

/-! ## setVolume: the use-case gate -/

theorem NO_ERROR_ne_INVALID_OPERATION : NO_ERROR ≠ INVALID_OPERATION := by decide

/-- Claim C6. For every `(left, right)` and every active use-case string, `setVolume`
returns `INVALID_OPERATION` and makes no `setLpaVolume` call (it leaves the state as it
is) if and only if the use-case is neither `SND_USE_CASE_VERB_HIFI_LOW_POWER` nor
`SND_USE_CASE_MOD_PLAY_LPA`; and it returns `NO_ERROR` after exactly one `setLpaVolume`
call if and only if the use-case is one of the two. -/
theorem setVolume_gate (u : UseCaseNames) (unspecified : Flt → Int) (s : Stream)
    (left right : Flt) :
    (((setVolume u unspecified s left right).1 = INVALID_OPERATION ∧
        volumeCalls (setVolume u unspecified s left right).2.log = volumeCalls s.log) ↔
      (s.useCase ≠ u.SND_USE_CASE_VERB_HIFI_LOW_POWER ∧
        s.useCase ≠ u.SND_USE_CASE_MOD_PLAY_LPA)) ∧
    (((setVolume u unspecified s left right).1 = NO_ERROR ∧
        volumeCalls (setVolume u unspecified s left right).2.log =
          volumeCalls s.log ++ [lpaVolume unspecified left right]) ↔
      (s.useCase = u.SND_USE_CASE_VERB_HIFI_LOW_POWER ∨
        s.useCase = u.SND_USE_CASE_MOD_PLAY_LPA)) ∧
    ((s.useCase ≠ u.SND_USE_CASE_VERB_HIFI_LOW_POWER ∧
        s.useCase ≠ u.SND_USE_CASE_MOD_PLAY_LPA) ↔
      setVolume u unspecified s left right = (INVALID_OPERATION, s)) := by
  by_cases hc : s.useCase = u.SND_USE_CASE_VERB_HIFI_LOW_POWER ∨
      s.useCase = u.SND_USE_CASE_MOD_PLAY_LPA
  · have hv : setVolume u unspecified s left right =
        (NO_ERROR, s.emit (Event.setLpaVolume (lpaVolume unspecified left right))) := by
      unfold setVolume; rw [if_pos hc]
    have hlog : volumeCalls (s.emit (Event.setLpaVolume (lpaVolume unspecified left right))).log
        = volumeCalls s.log ++ [lpaVolume unspecified left right] := by
      simp [volumeCalls, Stream.emit, List.filterMap_append]
    have hnc : ¬ (s.useCase ≠ u.SND_USE_CASE_VERB_HIFI_LOW_POWER ∧
        s.useCase ≠ u.SND_USE_CASE_MOD_PLAY_LPA) := by tauto
    rw [hv]
    refine ⟨⟨fun h => ?_, fun h => absurd h hnc⟩,
      ⟨fun _ => hc, fun _ => ⟨rfl, hlog⟩⟩, ⟨fun h => absurd h hnc, fun h => ?_⟩⟩
    · have h2 := h.2
      rw [hlog] at h2
      have := congrArg List.length h2
      simp at this
    · exact absurd (congrArg Prod.fst h) NO_ERROR_ne_INVALID_OPERATION
  · have hv : setVolume u unspecified s left right = (INVALID_OPERATION, s) := by
      unfold setVolume; rw [if_neg hc]
    have hnc : s.useCase ≠ u.SND_USE_CASE_VERB_HIFI_LOW_POWER ∧
        s.useCase ≠ u.SND_USE_CASE_MOD_PLAY_LPA := by tauto
    rw [hv]
    refine ⟨⟨fun _ => hnc, fun _ => ⟨rfl, rfl⟩⟩,
      ⟨fun h => absurd h.1.symm NO_ERROR_ne_INVALID_OPERATION, fun h => absurd h hc⟩,
      ⟨fun _ => rfl, fun _ => hnc⟩⟩

/-! ## Lemmas on rounding -/

theorem rne_le_of_le_intCast (q : ℚ) (z : ℤ) (h : q ≤ z) : rne q ≤ z := by
  have hf : ⌊q⌋ ≤ z := by
    have := (Int.floor_le q).trans h
    exact_mod_cast this
  have hup : 0 < q - ⌊q⌋ → ⌊q⌋ + 1 ≤ z := by
    intro hpos
    have : ((⌊q⌋ : ℤ) : ℚ) < z := by linarith
    have : ⌊q⌋ < z := by exact_mod_cast this
    omega
  unfold rne
  split_ifs with h1 h2 h3
  · exact hf
  · exact hup (by linarith)
  · exact hf
  · exact hup (by
      have : q - ⌊q⌋ = 1 / 2 := le_antisymm (not_lt.mp h2) (not_lt.mp h1)
      linarith)

theorem intCast_le_rne (q : ℚ) (z : ℤ) (h : (z : ℚ) ≤ q) : z ≤ rne q := by
  have hf : z ≤ ⌊q⌋ := Int.le_floor.mpr h
  unfold rne
  split_ifs <;> omega

theorem rne_le_hundred (q : ℚ) (h : q ≤ 201 / 2) : rne q ≤ 100 := by
  rcases lt_or_le q 100 with hlt | hge
  · have := rne_le_of_le_intCast q 100 (by push_cast; linarith)
    exact this
  · have hfl : ⌊q⌋ = 100 := by
      rw [Int.floor_eq_iff]
      constructor
      · push_cast; linarith
      · push_cast; linarith
    unfold rne
    rw [hfl]
    split_ifs with h1 h2 h3
    · exact le_refl _
    · exfalso; push_cast at h2; linarith
    · exact le_refl _
    · exact absurd (by decide : (100 : ℤ) % 2 = 0) h3

theorem ulp_pos (f : Fmt) (q : ℚ) : 0 < f.ulp q := by
  unfold Fmt.ulp
  exact zpow_pos (by norm_num) _

/-- Below `2 ^ E` the spacing of the format is at most `2 ^ (E - prec)`. -/
theorem ulp_exp_le (f : Fmt) (q : ℚ) (E : ℤ) (hE : |q| < 2 ^ E) (h1 : 1 ≤ E)
    (hmin : f.emin < E) : ∃ t : ℤ, f.ulp q = 2 ^ t ∧ t ≤ E - f.prec := by
  refine ⟨max (Int.log 2 |q|) f.emin - ((f.prec : ℤ) - 1), rfl, ?_⟩
  have hlog : Int.log 2 |q| < E := by
    rcases eq_or_lt_of_le (abs_nonneg q) with h0 | hpos
    · rw [← h0, Int.log_zero_right]; omega
    · rw [← Int.lt_zpow_iff_log_lt (by norm_num) hpos]
      simpa using hE
  have : max (Int.log 2 |q|) f.emin < E := max_lt hlog hmin
  omega

theorem grid_of_le (c n t : ℤ) (h : t ≤ n) : ∃ z : ℤ, (c : ℚ) * 2 ^ n = z * 2 ^ t := by
  refine ⟨c * 2 ^ (n - t).toNat, ?_⟩
  have h2 : ((2 : ℚ) ^ (n - t).toNat) = (2 : ℚ) ^ (n - t) := by
    rw [← zpow_natCast, Int.toNat_of_nonneg (by omega)]
  push_cast
  rw [h2, mul_assoc, ← zpow_add₀ (by norm_num : (2 : ℚ) ≠ 0)]
  congr 2
  omega

theorem roundFin_le_of_grid (f : Fmt) (x B : ℚ) (h : x ≤ B)
    (hB : ∃ z : ℤ, B = z * f.ulp x) : f.roundFin x ≤ B := by
  obtain ⟨z, hz⟩ := hB
  have hu := ulp_pos f x
  unfold Fmt.roundFin
  rw [hz]
  apply mul_le_mul_of_nonneg_right _ hu.le
  have : rne (x / f.ulp x) ≤ z := by
    apply rne_le_of_le_intCast
    rw [div_le_iff₀ hu, ← hz]
    exact h
  exact_mod_cast this

theorem le_roundFin_of_grid (f : Fmt) (x A : ℚ) (h : A ≤ x)
    (hA : ∃ z : ℤ, A = z * f.ulp x) : A ≤ f.roundFin x := by
  obtain ⟨z, hz⟩ := hA
  have hu := ulp_pos f x
  unfold Fmt.roundFin
  rw [hz]
  apply mul_le_mul_of_nonneg_right _ hu.le
  have : z ≤ rne (x / f.ulp x) := by
    apply intCast_le_rne
    rw [le_div_iff₀ hu, ← hz]
    exact h
  exact_mod_cast this

theorem roundFin_eq_of_grid (f : Fmt) (x : ℚ) (hx : ∃ z : ℤ, x = z * f.ulp x) :
    f.roundFin x = x :=
  le_antisymm (roundFin_le_of_grid f x x (le_refl _) hx)
    (le_roundFin_of_grid f x x (le_refl _) hx)

theorem round_of_lt (f : Fmt) (x : ℚ) (h : |f.roundFin x| < 2 ^ (f.emax + 1)) :
    f.round x = Flt.fin (f.roundFin x) := by
  unfold Fmt.round
  rw [if_neg (not_le.mpr h)]

/-- A dyadic value `m / 2 ^ k` below `2 ^ E` in magnitude is a value of the format when
`E + k` fits the precision and the format's exponent range. -/
theorem round_dyadic (f : Fmt) (m : ℤ) (k : ℕ) (E : ℤ) (hE : |(m : ℚ) / 2 ^ k| < 2 ^ E)
    (h1 : 1 ≤ E) (hmin : f.emin < E) (hp : E + k ≤ f.prec) (hmax : E ≤ f.emax + 1) :
    f.round ((m : ℚ) / 2 ^ k) = Flt.fin ((m : ℚ) / 2 ^ k) := by
  obtain ⟨t, ht, htle⟩ := ulp_exp_le f _ E hE h1 hmin
  have hgrid : ∃ z : ℤ, (m : ℚ) / 2 ^ k = z * f.ulp ((m : ℚ) / 2 ^ k) := by
    rw [ht]
    have := grid_of_le m (-(k : ℤ)) t (by omega)
    rwa [zpow_neg, zpow_natCast, ← div_eq_mul_inv] at this
  have he := roundFin_eq_of_grid f _ hgrid
  rw [round_of_lt f _ (by
    rw [he]
    exact lt_of_lt_of_le hE (zpow_le_zpow_right₀ (by norm_num) hmax)), he]

theorem rne_sub_abs (q : ℚ) : |(rne q : ℚ) - q| ≤ 1 / 2 := by
  have h1 := Int.floor_le q
  have h2 := Int.lt_floor_add_one q
  unfold rne
  rw [abs_le]
  split_ifs with a b c <;> push_cast <;> constructor <;> linarith

/-- Rounding moves a value by at most half the spacing. -/
theorem roundFin_sub_abs (f : Fmt) (x : ℚ) : |f.roundFin x - x| ≤ f.ulp x / 2 := by
  have hu := ulp_pos f x
  have h := rne_sub_abs (x / f.ulp x)
  have e : f.roundFin x - x = ((rne (x / f.ulp x) : ℚ) - x / f.ulp x) * f.ulp x := by
    unfold Fmt.roundFin
    field_simp
  rw [e, abs_mul, abs_of_pos hu]
  calc |(rne (x / f.ulp x) : ℚ) - x / f.ulp x| * f.ulp x
      ≤ 1 / 2 * f.ulp x := mul_le_mul_of_nonneg_right h hu.le
    _ = f.ulp x / 2 := by ring

/-! ## Lemmas on setVolume -/

/-- After the two clamping branches `volume` is NaN or a finite value in `[0, 1]`. -/
theorem clampedVolume_range (left right : Flt) :
    clampedVolume left right = Flt.nan ∨
      ∃ v : ℚ, clampedVolume left right = Flt.fin v ∧ 0 ≤ v ∧ v ≤ 1 := by
  unfold clampedVolume
  cases hx : Flt.divBy binary32 2 (Flt.add binary32 left right) with
  | nan => left; simp [Flt.lt]
  | inf neg =>
    right
    cases neg
    · exact ⟨1, by simp [Flt.lt], by norm_num, le_refl _⟩
    · exact ⟨0, by simp [Flt.lt], le_refl _, by norm_num⟩
  | fin a =>
    right
    simp only [Flt.lt]
    by_cases h0 : a < 0
    · exact ⟨0, by simp [h0], le_refl _, by norm_num⟩
    · by_cases h1 : 1 < a
      · exact ⟨1, by simp [h0, h1], by norm_num, le_refl _⟩
      · exact ⟨a, by simp [h0, h1], not_lt.mp h0, not_lt.mp h1⟩

/-- For `volume` in `[0, 1]` the `double` value of `(volume * 100.0) + 0.5` is finite, lies
in `[0.5, 100.5]` and is within `2 ^ (-46)` of the exact `volume * 100 + 1 / 2`. -/
theorem scaledVolume_range (v : ℚ) (h0 : 0 ≤ v) (h1 : v ≤ 1) :
    ∃ y : ℚ, scaledVolume (Flt.fin v) = Flt.fin y ∧ 1 / 2 ≤ y ∧ y ≤ 201 / 2 ∧
      |y - (v * 100 + 1 / 2)| ≤ 2 ^ (-46 : ℤ) := by
  have hpow7 : (100 : ℚ) < 2 ^ (7 : ℤ) := by norm_num
  have hbig : (2 : ℚ) ^ (7 : ℤ) ≤ 2 ^ (binary64.emax + 1) :=
    zpow_le_zpow_right₀ (by norm_num) (by decide)
  have hx0 : 0 ≤ v * 100 := by positivity
  have hx1 : v * 100 ≤ 100 := by linarith
  obtain ⟨t, ht, htle⟩ := ulp_exp_le binary64 (v * 100) 7
    (by rw [abs_of_nonneg hx0]; linarith) (by norm_num) (by decide)
  have htle' : t ≤ -46 := by simpa [binary64] using htle
  have hd0 : 0 ≤ binary64.roundFin (v * 100) :=
    le_roundFin_of_grid _ _ 0 hx0 ⟨0, by simp⟩
  have hd1 : binary64.roundFin (v * 100) ≤ 100 := by
    apply roundFin_le_of_grid _ _ 100 hx1
    rw [ht]
    obtain ⟨z, hz⟩ := grid_of_le 100 0 t (by omega)
    exact ⟨z, by rw [← hz]; norm_num⟩
  have hmul : Flt.mul binary64 (Flt.fin v) (Flt.fin 100) =
      Flt.fin (binary64.roundFin (v * 100)) := by
    simp only [Flt.mul]
    apply round_of_lt
    rw [abs_of_nonneg hd0]
    exact lt_of_le_of_lt hd1 (lt_of_lt_of_le hpow7 hbig)
  obtain ⟨t', ht', htle2⟩ := ulp_exp_le binary64 (binary64.roundFin (v * 100) + 1 / 2) 7
    (by rw [abs_of_nonneg (by linarith)]; norm_num; linarith) (by norm_num) (by decide)
  have htle2' : t' ≤ -46 := by simpa [binary64] using htle2
  have hy0 : 1 / 2 ≤ binary64.roundFin (binary64.roundFin (v * 100) + 1 / 2) := by
    apply le_roundFin_of_grid _ _ (1 / 2) (by linarith)
    rw [ht']
    obtain ⟨z, hz⟩ := grid_of_le 1 (-1) t' (by omega)
    exact ⟨z, by rw [← hz]; norm_num⟩
  have hy1 : binary64.roundFin (binary64.roundFin (v * 100) + 1 / 2) ≤ 201 / 2 := by
    apply roundFin_le_of_grid _ _ (201 / 2) (by linarith)
    rw [ht']
    obtain ⟨z, hz⟩ := grid_of_le 201 (-1) t' (by omega)
    exact ⟨z, by rw [← hz]; norm_num⟩
  have hstep : ∀ τ : ℤ, τ ≤ -46 → (2 : ℚ) ^ τ / 2 ≤ 2 ^ (-46 : ℤ) / 2 := fun τ hτ =>
    div_le_div_of_nonneg_right (zpow_le_zpow_right₀ (by norm_num) hτ) (by norm_num)
  have he1 : |binary64.roundFin (v * 100) - v * 100| ≤ 2 ^ (-46 : ℤ) / 2 :=
    (roundFin_sub_abs binary64 (v * 100)).trans (by rw [ht]; exact hstep t htle')
  have he2 : |binary64.roundFin (binary64.roundFin (v * 100) + 1 / 2) -
      (binary64.roundFin (v * 100) + 1 / 2)| ≤ 2 ^ (-46 : ℤ) / 2 :=
    (roundFin_sub_abs binary64 _).trans (by rw [ht']; exact hstep t' htle2')
  refine ⟨binary64.roundFin (binary64.roundFin (v * 100) + 1 / 2), ?_, hy0, hy1, ?_⟩
  · unfold scaledVolume
    rw [hmul]
    simp only [Flt.add]
    apply round_of_lt
    rw [abs_of_nonneg (by linarith)]
    exact lt_of_le_of_lt hy1 (lt_of_lt_of_le (by norm_num) hbig)
  · rw [abs_le] at he1 he2 ⊢
    constructor <;> linarith [he1.1, he1.2, he2.1, he2.2]

/-- On dyadic volumes `m / 2 ^ k`, `k ≤ 44`, in `[0, 1]` the `double` arithmetic is exact. -/
theorem scaledVolume_dyadic (m : ℤ) (k : ℕ) (hk : k ≤ 44) (h0 : 0 ≤ m) (h1 : m ≤ 2 ^ k) :
    scaledVolume (Flt.fin ((m : ℚ) / 2 ^ k)) = Flt.fin ((m : ℚ) / 2 ^ k * 100 + 1 / 2) := by
  have hpk : (0 : ℚ) < 2 ^ k := by positivity
  have hm0 : (0 : ℚ) ≤ m := by exact_mod_cast h0
  have hm1 : (m : ℚ) ≤ 2 ^ k := by exact_mod_cast h1
  have hv0 : 0 ≤ (m : ℚ) / 2 ^ k := div_nonneg hm0 hpk.le
  have hv1 : (m : ℚ) / 2 ^ k ≤ 1 := (div_le_one hpk).mpr hm1
  have e1 : (m : ℚ) / 2 ^ k * 100 = ((m * 100 : ℤ) : ℚ) / 2 ^ k := by push_cast; ring
  have e2 : ((m * 100 : ℤ) : ℚ) / 2 ^ k + 1 / 2 = ((m * 200 + 2 ^ k : ℤ) : ℚ) / 2 ^ (k + 1) := by
    push_cast; field_simp; ring
  have hmul : Flt.mul binary64 (Flt.fin ((m : ℚ) / 2 ^ k)) (Flt.fin 100) =
      Flt.fin (((m * 100 : ℤ) : ℚ) / 2 ^ k) := by
    simp only [Flt.mul]
    rw [e1]
    apply round_dyadic binary64 (m * 100) k 7 _ (by norm_num) (by decide)
      (by simp only [binary64]; omega) (by decide)
    rw [← e1, abs_of_nonneg (by positivity)]
    norm_num
    linarith
  unfold scaledVolume
  rw [hmul]
  simp only [Flt.add]
  rw [e1, e2]
  apply round_dyadic binary64 (m * 200 + 2 ^ k) (k + 1) 7 _ (by norm_num) (by decide)
    (by simp only [binary64]; push_cast; omega) (by decide)
  rw [← e2, ← e1, abs_of_nonneg (by positivity)]
  norm_num
  linarith

/-- On equal dyadic inputs `m / 2 ^ k`, `k ≤ 21`, in `[0, 1]` the `float` average is exact
and no clamping branch is taken. -/
theorem clampedVolume_dyadic (m : ℤ) (k : ℕ) (hk : k ≤ 21) (h0 : 0 ≤ m) (h1 : m ≤ 2 ^ k) :
    clampedVolume (Flt.fin ((m : ℚ) / 2 ^ k)) (Flt.fin ((m : ℚ) / 2 ^ k)) =
      Flt.fin ((m : ℚ) / 2 ^ k) := by
  have hpk : (0 : ℚ) < 2 ^ k := by positivity
  have hm0 : (0 : ℚ) ≤ m := by exact_mod_cast h0
  have hm1 : (m : ℚ) ≤ 2 ^ k := by exact_mod_cast h1
  have hv0 : 0 ≤ (m : ℚ) / 2 ^ k := div_nonneg hm0 hpk.le
  have hv1 : (m : ℚ) / 2 ^ k ≤ 1 := (div_le_one hpk).mpr hm1
  have e1 : (m : ℚ) / 2 ^ k + (m : ℚ) / 2 ^ k = ((2 * m : ℤ) : ℚ) / 2 ^ k := by
    push_cast; ring
  have e2 : ((2 * m : ℤ) : ℚ) / 2 ^ k / 2 = (m : ℚ) / 2 ^ k := by push_cast; ring
  have hadd : Flt.add binary32 (Flt.fin ((m : ℚ) / 2 ^ k)) (Flt.fin ((m : ℚ) / 2 ^ k)) =
      Flt.fin (((2 * m : ℤ) : ℚ) / 2 ^ k) := by
    simp only [Flt.add]
    rw [e1]
    apply round_dyadic binary32 (2 * m) k 2 _ (by norm_num) (by decide)
      (by simp only [binary32]; omega) (by decide)
    rw [← e1, abs_of_nonneg (by positivity)]
    norm_num
    linarith
  have hdiv : Flt.divBy binary32 2 (Flt.fin (((2 * m : ℤ) : ℚ) / 2 ^ k)) =
      Flt.fin ((m : ℚ) / 2 ^ k) := by
    simp only [Flt.divBy]
    rw [e2]
    apply round_dyadic binary32 m k 1 _ (by norm_num) (by decide)
      (by simp only [binary32]; omega) (by decide)
    rw [abs_of_nonneg hv0]
    norm_num
    linarith
  unfold clampedVolume
  rw [hadd, hdiv]
  simp only [Flt.lt]
  simp [not_lt.mpr hv0, not_lt.mpr hv1]

theorem lrint_of_range (unspecified : Flt → Int) (y : ℚ) (h0 : 1 / 2 ≤ y) (h1 : y ≤ 201 / 2) :
    lrint unspecified (Flt.fin y) = rne y ∧ 0 ≤ rne y ∧ rne y ≤ 100 := by
  have ha : 0 ≤ rne y := intCast_le_rne y 0 (by push_cast; linarith)
  have hb : rne y ≤ 100 := rne_le_hundred y h1
  refine ⟨?_, ha, hb⟩
  simp only [lrint]
  rw [if_pos ⟨by omega, by omega⟩]

/-- On equal dyadic inputs the forwarded percentage is the exact `volume * 100 + 1 / 2`
rounded to the nearest integer, ties to even. -/
theorem lpaVolume_dyadic (unspecified : Flt → Int) (m : ℤ) (k : ℕ) (hk : k ≤ 21)
    (h0 : 0 ≤ m) (h1 : m ≤ 2 ^ k) :
    lpaVolume unspecified (Flt.fin ((m : ℚ) / 2 ^ k)) (Flt.fin ((m : ℚ) / 2 ^ k)) =
      rne ((m : ℚ) / 2 ^ k * 100 + 1 / 2) := by
  have hpk : (0 : ℚ) < 2 ^ k := by positivity
  have hm0 : (0 : ℚ) ≤ m := by exact_mod_cast h0
  have hm1 : (m : ℚ) ≤ 2 ^ k := by exact_mod_cast h1
  have hv0 : 0 ≤ (m : ℚ) / 2 ^ k := div_nonneg hm0 hpk.le
  have hv1 : (m : ℚ) / 2 ^ k ≤ 1 := (div_le_one hpk).mpr hm1
  unfold lpaVolume
  rw [clampedVolume_dyadic m k hk h0 h1, scaledVolume_dyadic m k (by omega) h0 h1]
  exact (lrint_of_range unspecified _ (by linarith) (by linarith)).1

theorem rne_201_half : rne (201 / 2) = 100 := by
  have hf : ⌊(201 / 2 : ℚ)⌋ = 100 := by norm_num [Int.floor_eq_iff]
  unfold rne
  rw [hf]
  norm_num

theorem rne_half : rne (1 / 2) = 0 := by
  have hf : ⌊(1 / 2 : ℚ)⌋ = 0 := by norm_num [Int.floor_eq_iff]
  unfold rne
  rw [hf]
  norm_num

theorem rne_101_half : rne (101 / 2) = 50 := by
  have hf : ⌊(101 / 2 : ℚ)⌋ = 50 := by norm_num [Int.floor_eq_iff]
  unfold rne
  rw [hf]
  norm_num

theorem rne_29_eighth : rne (29 / 8) = 4 := by
  have hf : ⌊(29 / 8 : ℚ)⌋ = 3 := by norm_num [Int.floor_eq_iff]
  unfold rne
  rw [hf]
  norm_num

theorem lpaVolume_one (unspecified : Flt → Int) :
    lpaVolume unspecified (Flt.fin 1) (Flt.fin 1) = 100 := by
  have h := lpaVolume_dyadic unspecified 1 0 (by omega) (by decide) (by decide)
  norm_num at h
  rw [h, rne_201_half]

theorem lpaVolume_half (unspecified : Flt → Int) :
    lpaVolume unspecified (Flt.fin (1 / 2)) (Flt.fin (1 / 2)) = 50 := by
  have h := lpaVolume_dyadic unspecified 1 1 (by omega) (by decide) (by decide)
  norm_num at h
  rw [h, rne_101_half]

theorem lpaVolume_thirtysecond (unspecified : Flt → Int) :
    lpaVolume unspecified (Flt.fin (1 / 32)) (Flt.fin (1 / 32)) = 4 := by
  have h := lpaVolume_dyadic unspecified 1 5 (by omega) (by decide) (by decide)
  norm_num at h
  rw [h, rne_29_eighth]

theorem clampedVolume_one : clampedVolume (Flt.fin 1) (Flt.fin 1) = Flt.fin 1 := by
  have h := clampedVolume_dyadic 1 0 (by omega) (by decide) (by decide)
  norm_num at h
  exact h

theorem clampedVolume_half :
    clampedVolume (Flt.fin (1 / 2)) (Flt.fin (1 / 2)) = Flt.fin (1 / 2) := by
  have h := clampedVolume_dyadic 1 1 (by omega) (by decide) (by decide)
  norm_num at h
  exact h

theorem clampedVolume_thirtysecond :
    clampedVolume (Flt.fin (1 / 32)) (Flt.fin (1 / 32)) = Flt.fin (1 / 32) := by
  have h := clampedVolume_dyadic 1 5 (by omega) (by decide) (by decide)
  norm_num at h
  exact h

/-! ## setVolume: the percentage -/

/-- Claim C5 (as amended). For every `(left, right)` whose clamped `float` average `v` is not
NaN, on a volume-capable profile, `setVolume` clamps `v` to `[0, 1]` and forwards to
`setLpaVolume` exactly the integer nearest, ties going to the even integer (what `lrint`
does in the default rounding direction), to the `double` value `y` of `v * 100 + 0.5`,
which is within `2 ^ (-46)` of the exact `v * 100 + 1 / 2`; that percentage is an integer
in `[0, 100]`, `100` at `v = 1` and `0` at `v = 0`. -/
theorem setVolume_percentage (u : UseCaseNames) (unspecified : Flt → Int) (s : Stream)
    (left right : Flt)
    (hcap : s.useCase = u.SND_USE_CASE_VERB_HIFI_LOW_POWER ∨
      s.useCase = u.SND_USE_CASE_MOD_PLAY_LPA)
    (hnan : clampedVolume left right ≠ Flt.nan) :
    ∃ v y : ℚ, clampedVolume left right = Flt.fin v ∧ 0 ≤ v ∧ v ≤ 1 ∧
      scaledVolume (Flt.fin v) = Flt.fin y ∧ |y - (v * 100 + 1 / 2)| ≤ 2 ^ (-46 : ℤ) ∧
      setVolume u unspecified s left right =
        (NO_ERROR, s.emit (Event.setLpaVolume (rne y))) ∧
      0 ≤ rne y ∧ rne y ≤ 100 ∧ (v = 1 → rne y = 100) ∧ (v = 0 → rne y = 0) := by
  rcases clampedVolume_range left right with hn | ⟨v, hv, h0, h1⟩
  · exact absurd hn hnan
  · obtain ⟨y, hy, hy0, hy1, herr⟩ := scaledVolume_range v h0 h1
    obtain ⟨hl, ha, hb⟩ := lrint_of_range unspecified y hy0 hy1
    refine ⟨v, y, hv, h0, h1, hy, herr, ?_, ha, hb, ?_, ?_⟩
    · unfold setVolume lpaVolume
      rw [if_pos hcap, hv, hy, hl]
    · intro h
      subst h
      have e := scaledVolume_dyadic 1 0 (by omega) (by decide) (by decide)
      norm_num at e
      rw [e] at hy
      cases hy
      exact rne_201_half
    · intro h
      subst h
      have e := scaledVolume_dyadic 0 0 (by omega) (by decide) (by decide)
      norm_num at e
      rw [e] at hy
      cases hy
      have := rne_half
      norm_num at this ⊢
      exact this

/-- Witness of C5 (as amended): `left = right = 1.0` on the LPA profile. -/
theorem setVolume_percentage_witness :
    ((fresh none "Play LPA" 0).useCase = stockNames.SND_USE_CASE_MOD_PLAY_LPA ∧
      clampedVolume (Flt.fin 1) (Flt.fin 1) ≠ Flt.nan) ∧
    ∃ v y : ℚ, clampedVolume (Flt.fin 1) (Flt.fin 1) = Flt.fin v ∧ 0 ≤ v ∧ v ≤ 1 ∧
      scaledVolume (Flt.fin v) = Flt.fin y ∧ |y - (v * 100 + 1 / 2)| ≤ 2 ^ (-46 : ℤ) ∧
      setVolume stockNames (fun _ => 0) (fresh none "Play LPA" 0) (Flt.fin 1) (Flt.fin 1) =
        (NO_ERROR, (fresh none "Play LPA" 0).emit (Event.setLpaVolume (rne y))) ∧
      0 ≤ rne y ∧ rne y ≤ 100 ∧ (v = 1 → rne y = 100) ∧ (v = 0 → rne y = 0) :=
  ⟨⟨rfl, by rw [clampedVolume_one]; exact Flt.noConfusion⟩,
    setVolume_percentage stockNames (fun _ => 0) (fresh none "Play LPA" 0) (Flt.fin 1)
      (Flt.fin 1) (Or.inr rfl) (by rw [clampedVolume_one]; exact Flt.noConfusion)⟩

/-- Claim C5, counterexample to the claim as stated. On the LPA profile:
with `left = right = 1.0` (`v = 1`) `setVolume` forwards `100`, while round-half-up of
`v * 100 + 0.5 = 100.5` is `101`; with `left = right = 0.5` it forwards `50`, while
round-half-up of `50.5` is `51`.  Nor is the percentage round-half-up of `v * 100`:
with `left = right = 0.03125` it forwards `4`, while round-half-up of `3.125` is `3`. -/
theorem setVolume_not_round_half_up :
    (clampedVolume (Flt.fin 1) (Flt.fin 1) = Flt.fin 1 ∧
      setVolume stockNames (fun _ => 0) (fresh none "Play LPA" 0) (Flt.fin 1) (Flt.fin 1) =
        (NO_ERROR, (fresh none "Play LPA" 0).emit (Event.setLpaVolume 100)) ∧
      roundHalfUp (1 * 100 + 1 / 2) = 101) ∧
    (clampedVolume (Flt.fin (1 / 2)) (Flt.fin (1 / 2)) = Flt.fin (1 / 2) ∧
      setVolume stockNames (fun _ => 0) (fresh none "Play LPA" 0) (Flt.fin (1 / 2))
          (Flt.fin (1 / 2)) =
        (NO_ERROR, (fresh none "Play LPA" 0).emit (Event.setLpaVolume 50)) ∧
      roundHalfUp (1 / 2 * 100 + 1 / 2) = 51) ∧
    (clampedVolume (Flt.fin (1 / 32)) (Flt.fin (1 / 32)) = Flt.fin (1 / 32) ∧
      setVolume stockNames (fun _ => 0) (fresh none "Play LPA" 0) (Flt.fin (1 / 32))
          (Flt.fin (1 / 32)) =
        (NO_ERROR, (fresh none "Play LPA" 0).emit (Event.setLpaVolume 4)) ∧
      roundHalfUp (1 / 32 * 100) = 3) := by
  have hcap : (fresh none "Play LPA" 0).useCase = stockNames.SND_USE_CASE_VERB_HIFI_LOW_POWER ∨
      (fresh none "Play LPA" 0).useCase = stockNames.SND_USE_CASE_MOD_PLAY_LPA := Or.inr rfl
  refine ⟨⟨clampedVolume_one, ?_, ?_⟩, ⟨clampedVolume_half, ?_, ?_⟩,
    ⟨clampedVolume_thirtysecond, ?_, ?_⟩⟩
  · unfold setVolume; rw [if_pos hcap, lpaVolume_one]
  · unfold roundHalfUp; norm_num [Int.floor_eq_iff]
  · unfold setVolume; rw [if_pos hcap, lpaVolume_half]
  · unfold roundHalfUp; norm_num [Int.floor_eq_iff]
  · unfold setVolume; rw [if_pos hcap, lpaVolume_thirtysecond]
  · unfold roundHalfUp; norm_num [Int.floor_eq_iff]

end AudioStreamOutALSA
